import Mathlib

/-! The token extractor and the renderer of solidity-ansi (`src/highlighter.mjs`).

A shallow embedding of `highlighter.mjs` (with `colors.mjs`) and of its caller
`highlightSolidityCode` (`toDiscordAnsi.mjs`, `parseSolidity.mjs`), followed by theorems about
them.

* A JavaScript string is a list of UTF-16 code units, written `Str`; offsets are natural numbers.
* A syntax-tree node is a JavaScript object: its `type`, its `range` (the parser is called with
  `range: true`, so every node carries `[start, end]`, `end` being the offset of the node's last
  character) and its remaining properties in insertion order.
* A rule that reads a property of `undefined` or `null` throws a `TypeError`; such a rule returns
  `none`.
-/

namespace SolidityAnsi

/-- A JavaScript string: the list of its code units. -/
abbrev Str := List Char

/-! ## JavaScript string primitives -/

/-- The call `code.slice(a, b)` for offsets `a`, `b` that are natural numbers. -/
def slice (code : Str) (a b : Nat) : Str :=
  (code.drop a).take (b - a)

/-- Whether `s` is found at the head of `text`. -/
def startsWith (s text : Str) : Bool :=
  s.isPrefixOf text

/-- The scan of `indexOf`: `k` is the offset of the head of the text still to search. -/
def indexOfAux (s : Str) : Str → Nat → Option Nat
  | [], k => if s = [] then some k else none
  | c :: cs, k => if startsWith s (c :: cs) then some k else indexOfAux s cs (k + 1)

/-- The call `code.indexOf(s, start)`: the first offset at or after `start` where `s` occurs, `none`
for `-1`. -/
def indexOf (code s : Str) (start : Nat) : Option Nat :=
  indexOfAux s (code.drop start) (min start code.length)

/-- The decimal text of a number, as in `String(n)`. -/
def natStr (n : Nat) : Str :=
  (toString n).toList

/-- The call `range.join(',')` on a two-element range. -/
def rangeKey (r : Nat × Nat) : Str :=
  natStr r.1 ++ [','] ++ natStr r.2

/-- The line terminators of the regular-expression `.` and `$`. -/
def isLineTerminator (c : Char) : Bool :=
  c = '\n' || c = '\r' || c = '\u2028' || c = '\u2029'

/-- The regular-expression class `\s`. -/
def isRegexSpace (c : Char) : Bool :=
  c = '\t' || c = '\n' || c = '\x0b' || c = '\x0c' || c = '\r' || c = ' ' ||
  c = '\u00a0' || c = '\u1680' || (0x2000 ≤ c.toNat && c.toNat ≤ 0x200a) ||
  c = '\u2028' || c = '\u2029' || c = '\u202f' || c = '\u205f' || c = '\u3000' ||
  c = '\ufeff'

/-! ## Tokens and the color table -/

/-- A token: `{ type, value, range }`. `value` is `none` when the rule stored `undefined`. -/
structure Token where
  type : String
  value : Option Str
  range : Nat × Nat
deriving DecidableEq, Repr

/-- The escape character. -/
def esc : Char := '\x1b'

/-- The control code `colors.reset`. -/
def colorsReset : Str := esc :: "[0m".toList

/-- The control code `colors.fg.black`. -/
def fgBlack : Str := esc :: "[30m".toList
/-- The control code `colors.fg.green`. -/
def fgGreen : Str := esc :: "[32m".toList
/-- The control code `colors.fg.yellow`. -/
def fgYellow : Str := esc :: "[33m".toList
/-- The control code `colors.fg.blue`. -/
def fgBlue : Str := esc :: "[34m".toList
/-- The control code `colors.fg.magenta`. -/
def fgMagenta : Str := esc :: "[35m".toList
/-- The control code `colors.fg.cyan`. -/
def fgCyan : Str := esc :: "[36m".toList
/-- The control code `colors.fg.white`. -/
def fgWhite : Str := esc :: "[37m".toList

/-- The entries of `colorsMap`. -/
def colorsMap : List (String × Str) :=
  [ ("keyword", fgBlue), ("type", fgCyan), ("string", fgGreen), ("identifier", fgWhite),
    ("number", fgBlue), ("operator", fgWhite), ("comment", fgBlack), ("visibility", fgBlue),
    ("contractName", fgCyan), ("eventName", fgCyan), ("funcName", fgYellow),
    ("parenthesis", fgMagenta), ("brackets", fgBlue), ("storageLocation", fgBlue),
    ("returnsKeyword", fgMagenta), ("hexNumber", fgGreen), ("structName", fgGreen),
    ("memberAccess", fgYellow) ]

/-- The properties that the object literal `colorsMap` inherits from `Object.prototype`, each
with the text that the template literal of `applyColors` makes of its value: a built-in
function prints as `function name() { [native code] }`, the prototype object as
`[object Object]`. -/
def inheritedProps : List (String × Str) :=
  [ ("constructor", "function Object() \x7b [native code] \x7d".toList),
    ("__defineGetter__", "function __defineGetter__() \x7b [native code] \x7d".toList),
    ("__defineSetter__", "function __defineSetter__() \x7b [native code] \x7d".toList),
    ("hasOwnProperty", "function hasOwnProperty() \x7b [native code] \x7d".toList),
    ("__lookupGetter__", "function __lookupGetter__() \x7b [native code] \x7d".toList),
    ("__lookupSetter__", "function __lookupSetter__() \x7b [native code] \x7d".toList),
    ("isPrototypeOf", "function isPrototypeOf() \x7b [native code] \x7d".toList),
    ("propertyIsEnumerable", "function propertyIsEnumerable() \x7b [native code] \x7d".toList),
    ("toString", "function toString() \x7b [native code] \x7d".toList),
    ("valueOf", "function valueOf() \x7b [native code] \x7d".toList),
    ("__proto__", "[object Object]".toList),
    ("toLocaleString", "function toLocaleString() \x7b [native code] \x7d".toList) ]

/-- The text that `applyColors` puts before a token's slice: `colorsMap[type] || colors.reset`,
where the property read finds an entry of the table first and an inherited property next. -/
def colorFor (type : String) : Str :=
  match colorsMap.lookup type with
  | some c => c
  | none =>
    match inheritedProps.lookup type with
    | some text => text
    | none => colorsReset

/-! ## Comments -/

/-- The function `isRangeInComments(range, commentRanges)`; `none` stands for a missing argument. -/
def isRangeInComments (range : Option (Nat × Nat)) (commentRanges : Option (List (Nat × Nat))) :
    Bool :=
  match range, commentRanges with
  | some r, some crs => crs.any fun cr => decide (r.1 ≥ cr.1) && decide (r.2 ≤ cr.2)
  | _, _ => true

/-- The offset, in the text after `/*`, of the first `*/`. -/
def findClose : Str → Option Nat
  | '*' :: '/' :: _ => some 0
  | _ :: rest => (findClose rest).map (· + 1)
  | [] => none

/-- The length of the match of the comment pattern anchored at the head of the text:
`//` and the rest of the line, or `/*` up to the first `*/`. -/
def matchComment : Str → Option Nat
  | '/' :: '/' :: rest => some (2 + (rest.takeWhile fun c => !isLineTerminator c).length)
  | '/' :: '*' :: rest => (findClose rest).map (· + 4)
  | _ => none

/-- The `exec` loop of `extractComments`: `pos` is the offset of the head of the text and
`skip` counts the characters of the last match still to pass over. -/
def extractCommentsFrom : Str → Nat → Nat → List Token
  | [], _, _ => []
  | _ :: cs, pos, skip + 1 => extractCommentsFrom cs (pos + 1) skip
  | c :: cs, pos, 0 =>
    match matchComment (c :: cs) with
    | some len =>
      ⟨"comment", some ((c :: cs).take len), (pos, pos + len)⟩ ::
        extractCommentsFrom cs (pos + 1) (len - 1)
    | none => extractCommentsFrom cs (pos + 1) 0

/-- The function `extractComments(code)` of `highlighter.mjs`. -/
def extractComments (code : Str) : List Token :=
  extractCommentsFrom code 0 0

/-! ## Merging and rendering -/

/-- The order of the comparator `(a, b) => a.range[0] - b.range[0]`. -/
def startLE (a b : Token) : Prop := a.range.1 ≤ b.range.1

instance : DecidableRel startLE := fun a b => inferInstanceAs (Decidable (a.range.1 ≤ b.range.1))

instance : IsTotal Token startLE := ⟨fun a b => Nat.le_total a.range.1 b.range.1⟩

instance : IsTrans Token startLE := ⟨fun _ _ _ h₁ h₂ => Nat.le_trans h₁ h₂⟩

/-- The call `tokens.sort((a, b) => a.range[0] - b.range[0])`: a stable sort by start offset. -/
def sortTokens (tokens : List Token) : List Token :=
  tokens.insertionSort startLE

/-- One round of the `forEach` of `applyColors`: the state is `(coloredCode, currentIndex)`. -/
def applyStep (code : Str) (acc : Str × Nat) (token : Token) : Str × Nat :=
  let start := token.range.1
  let stop := token.range.2
  let acc1 : Str × Nat := if acc.2 < start then (acc.1 ++ slice code acc.2 start, start) else acc
  (acc1.1 ++ (colorFor token.type ++ slice code start stop ++ colorsReset), stop)

/-- The function `applyColors(code, tokens)`. -/
def applyColors (code : Str) (tokens : List Token) : Str :=
  let acc := (sortTokens tokens).foldl (applyStep code) ([], 0)
  if acc.2 < code.length then acc.1 ++ code.drop acc.2 else acc.1

/-! ## Syntax-tree nodes -/

mutual
/-- A syntax-tree node: its `type`, its `range` and its other properties in insertion order. -/
inductive Node where
  | mk (type : String) (range : Nat × Nat) (props : List (String × PVal))
/-- A property value of a node. -/
inductive PVal where
  | undefined
  | null
  | str (s : Str)
  | bool (b : Bool)
  | node (n : Node)
  | arr (xs : List PVal)
end

/-- The property `node.type`. -/
def Node.type : Node → String
  | .mk t _ _ => t

/-- The property `node.range`. -/
def Node.range : Node → Nat × Nat
  | .mk _ r _ => r

/-- The other properties of a node. -/
def Node.props : Node → List (String × PVal)
  | .mk _ _ ps => ps

/-- A property read in a property list: `undefined` when the key is absent. -/
def lookupProp : List (String × PVal) → String → PVal
  | [], _ => .undefined
  | (k, v) :: rest, key => if k = key then v else lookupProp rest key

/-- The property read `node[key]`. -/
def Node.get (n : Node) (key : String) : PVal :=
  lookupProp n.props key

/-- JavaScript truthiness of a property value. -/
def PVal.truthy : PVal → Bool
  | .undefined => false
  | .null => false
  | .str s => !s.isEmpty
  | .bool b => b
  | .node _ => true
  | .arr _ => true

/-- The text of a property that the parser declares as a string or `null`, when it is truthy:
the case in which `if (node.name)` and its siblings enter their block. -/
def PVal.text? : PVal → Option Str
  | .str s => if s.isEmpty then none else some s
  | _ => none

/-- The string stored as a token's `value`; `none` when the property is not a string. -/
def PVal.value? : PVal → Option Str
  | .str s => some s
  | _ => none

mutual
/-- The conversion `String(v)`, as applied by `v + range.join(',')`. -/
def PVal.toStr : PVal → Str
  | .undefined => "undefined".toList
  | .null => "null".toList
  | .str s => s
  | .bool b => if b then "true".toList else "false".toList
  | .node _ => "[object Object]".toList
  | .arr xs => PVal.joinWith [','] xs
/-- The call `xs.join(sep)`: `undefined` and `null` elements give the empty string. -/
def PVal.joinWith (sep : Str) : List PVal → Str
  | [] => []
  | [.undefined] => []
  | [.null] => []
  | [x] => PVal.toStr x
  | .undefined :: rest => sep ++ PVal.joinWith sep rest
  | .null :: rest => sep ++ PVal.joinWith sep rest
  | x :: rest => PVal.toStr x ++ sep ++ PVal.joinWith sep rest
end

/-! ## The claimed-span map `seen` and the traversal state -/

/-- A value stored in `seen`: `true`, or the length stored by the string-literal rule. -/
inductive SeenVal where
  | yes
  | len (n : Nat)
deriving DecidableEq, Repr

/-- JavaScript truthiness of a stored value. -/
def SeenVal.truthy : SeenVal → Bool
  | .yes => true
  | .len n => n != 0

/-- The number added by `i += seen[i]`. -/
def SeenVal.toNat : SeenVal → Nat
  | .yes => 1
  | .len n => n

/-- The state of one `collectTokens` call: the `tokens` array and the `seen` object (latest
write first). -/
structure St where
  tokens : List Token
  seen : List (Str × SeenVal)
deriving DecidableEq, Repr

/-- The call `tokens.push(t)`. -/
def St.push (st : St) (t : Token) : St :=
  { st with tokens := st.tokens ++ [t] }

/-- The assignment `seen[key] = v`. -/
def St.mark (st : St) (key : Str) (v : SeenVal) : St :=
  { st with seen := (key, v) :: st.seen }

/-- The test `if (seen[key])`. -/
def St.isSeen (st : St) (key : Str) : Bool :=
  match st.seen.lookup key with
  | some v => v.truthy
  | none => false

/-! ## The rules of `collectTokens` -/

/-- The set `solidityTypes`. -/
def solidityTypes : List Str :=
  [ "address", "uint", "uint8", "uint16", "uint32", "uint64", "uint128", "uint256",
    "int", "int8", "int16", "int32", "int64", "int128", "int256",
    "bool", "bytes", "bytes1", "bytes2", "bytes3", "bytes4", "bytes5", "bytes6",
    "bytes7", "bytes8", "bytes9", "bytes10", "bytes11", "bytes12", "bytes13",
    "bytes14", "bytes15", "bytes16", "bytes17", "bytes18", "bytes19", "bytes20",
    "bytes21", "bytes22", "bytes23", "bytes24", "bytes25", "bytes26", "bytes27",
    "bytes28", "bytes29", "bytes30", "bytes31", "bytes32",
    "string" ].map String.toList

/-- The set `solidityGlobalVars`. -/
def solidityGlobalVars : List Str :=
  [ "constructor", "block", "tx", "now", "msg.sender", "msg.value", "msg.data", "msg.sig",
    "msg.gas", "block.coinbase", "block.difficulty", "block.gaslimit", "block.number",
    "block.timestamp", "tx.gasprice", "tx.origin" ].map String.toList

mutual
/-- The `parts` array that `getFullMemberExpression` builds, starting at `current`. -/
def memberParts : Node → Option (List PVal)
  | .mk ty _ ps =>
    if ty = "MemberAccess" then
      (memberPartsIn ps).map fun inner => inner ++ [lookupProp ps "memberName"]
    else if ty = "Identifier" then some [lookupProp ps "name"]
    else some []
/-- The step `current = current.expression` over the property list of `current`. -/
def memberPartsIn : List (String × PVal) → Option (List PVal)
  | [] => none
  | (k, v) :: rest => if k = "expression" then memberPartsOf v else memberPartsIn rest
/-- The rest of the loop at the new `current`: reading `.type` of `undefined` or `null`
throws, and a value that is not a node has no `type`. -/
def memberPartsOf : PVal → Option (List PVal)
  | .node n => memberParts n
  | .undefined => none
  | .null => none
  | _ => some []
end

/-- The function `getFullMemberExpression(node)`. -/
def getFullMemberExpression (node : Node) : Option Str :=
  (memberParts node).map (PVal.joinWith ['.'])

/-- The function `safeFindNameAndPush(node, tokens, code, keyword, tokenNameForColor)`. -/
def safeFindNameAndPush (node : Node) (st : St) (code keyword : Str)
    (tokenNameForColor : String) : St :=
  match (node.get "name").text? with
  | none => st
  | some funcName =>
    let nameStart := node.range.1 + keyword.length + 1
    let nameEnd := nameStart + funcName.length
    if slice code nameStart nameEnd = funcName then
      st.push ⟨tokenNameForColor, some funcName, (nameStart, nameEnd)⟩
    else
      match indexOf code funcName (node.range.1 + keyword.length) with
      | some actualStart =>
        st.push ⟨tokenNameForColor, some funcName, (actualStart, actualStart + funcName.length)⟩
      | none => st

/-- The token a forward search pushes: `type` over the first occurrence of `word` at or after
`start`, nothing when `indexOf` gives `-1`. -/
def pushFound (st : St) (code : Str) (type : String) (word : Str) (start : Nat) : St :=
  match indexOf code word start with
  | some found => st.push ⟨type, some word, (found, found + word.length)⟩
  | none => st

namespace Visitor

/-- The rule `ContractDefinition(node)`. -/
def ContractDefinition (code : Str) (node : Node) (st : St) : St :=
  let st := st.push ⟨"keyword", some "contract".toList, (node.range.1, node.range.1 + 8)⟩
  match (node.get "name").text? with
  | none => st
  | some contractName =>
    let nameStart := node.range.1 + 8 + 1
    let nameEnd := nameStart + contractName.length
    if slice code nameStart nameEnd = contractName then
      st.push ⟨"contractName", some contractName, (nameStart, nameEnd)⟩
    else
      match indexOf code contractName (node.range.1 + 8) with
      | some actualStart =>
        st.push ⟨"contractName", some contractName,
          (actualStart, actualStart + contractName.length)⟩
      | none => st

/-- The token `{ type: 'type', value: t.name, range: [t.range[0], t.range[1]+1] }` pushed for a
child `t`; reading `t.range[0]` throws when the truthy `t` is not a node. -/
def pushTypeOf (st : St) (t : PVal) : Option St :=
  match t with
  | .node n => some (st.push ⟨"type", (n.get "name").value?, (n.range.1, n.range.2 + 1)⟩)
  | _ => none

/-- The rule `TypeConversion(node)`. -/
def TypeConversion (cr : List (Nat × Nat)) (node : Node) (st : St) : Option St :=
  if isRangeInComments (some node.range) (some cr) then some st
  else if st.isSeen (rangeKey node.range) then some st
  else
    let st := st.mark (rangeKey node.range) .yes
    if (node.get "typeName").truthy then pushTypeOf st (node.get "typeName") else some st

/-- The rule `MemberAccess(node)`. Offsets are natural numbers, and in
`node.range[0] + node.expression.range[1] - node.expression.range[0] + 2` the subtraction stays
above zero on every range whose start does not exceed its end. -/
def MemberAccess (cr : List (Nat × Nat)) (node : Node) (st : St) : Option St :=
  if isRangeInComments (some node.range) (some cr) then some st
  else
    let key := (node.get "memberName").toStr ++ rangeKey node.range
    if st.isSeen key then some st
    else
      match getFullMemberExpression node with
      | none => none
      | some fullExpression =>
        if fullExpression ∈ solidityGlobalVars then
          some (st.push ⟨"keyword", some fullExpression, (node.range.1, node.range.2 + 1)⟩)
        else
          match node.get "expression" with
          | .node e =>
            some ((st.push ⟨"memberAccess", (node.get "memberName").value?,
              (node.range.1 + e.range.2 - e.range.1 + 2, node.range.2 + 1)⟩).mark key .yes)
          | _ => none

/-- The rule `EventDefinition(node)`. -/
def EventDefinition (code : Str) (node : Node) (st : St) : St :=
  let st := st.push ⟨"keyword", some "event".toList, (node.range.1, node.range.1 + 5)⟩
  safeFindNameAndPush node st code "event".toList "eventName"

/-- The rule `EmitStatement(node)`. -/
def EmitStatement (node : Node) (st : St) : St :=
  st.push ⟨"parenthesis", some "emit".toList, (node.range.1, node.range.1 + 4)⟩

/-- The rule `HexNumber(node)`. -/
def HexNumber (cr : List (Nat × Nat)) (node : Node) (st : St) : St :=
  if isRangeInComments (some node.range) (some cr) then st
  else
    let key := (node.get "value").toStr ++ rangeKey node.range
    if st.isSeen key then st
    else
      (st.push ⟨"hexNumber", (node.get "value").value?, (node.range.1, node.range.2 + 1)⟩).mark
        key .yes

/-- The rule `StructDefinition(node)`. -/
def StructDefinition (code : Str) (cr : List (Nat × Nat)) (node : Node) (st : St) : St :=
  if isRangeInComments (some node.range) (some cr) then st
  else
    let st := st.push ⟨"keyword", some "struct".toList, (node.range.1, node.range.1 + 6)⟩
    safeFindNameAndPush node st code "struct".toList "structName"

/-- The rule `Mapping(node)`. -/
def Mapping (cr : List (Nat × Nat)) (node : Node) (st : St) : Option St :=
  if isRangeInComments (some node.range) (some cr) then some st
  else if st.isSeen (rangeKey node.range) then some st
  else
    let st := st.mark (rangeKey node.range) .yes
    let st := st.push ⟨"keyword", some "mapping".toList, (node.range.1, node.range.1 + 7)⟩
    let afterKey : Option St :=
      if (node.get "keyType").truthy then pushTypeOf st (node.get "keyType") else some st
    afterKey.bind fun st =>
      if (node.get "valueType").truthy then
        match node.get "valueType" with
        | .node v => if v.type = "Mapping" then some st else pushTypeOf st (.node v)
        | other => pushTypeOf st other
      else some st

/-- The rule `FunctionDefinition(node)`. -/
def FunctionDefinition (code : Str) (cr : List (Nat × Nat)) (node : Node) (st : St) : St :=
  if isRangeInComments (some node.range) (some cr) then st
  else
    let st := st.push ⟨"keyword", some "function".toList, (node.range.1, node.range.1 + 8)⟩
    let st :=
      match (node.get "visibility").text? with
      | some visibility => pushFound st code "visibility" visibility node.range.1
      | none => st
    let st :=
      match (node.get "stateMutability").text? with
      | some visibility => pushFound st code "visibility" visibility node.range.1
      | none => st
    let st := safeFindNameAndPush node st code "function".toList "funcName"
    match node.get "returnParameters" with
    | .arr (_ :: _) => pushFound st code "returnsKeyword" "returns".toList node.range.1
    | _ => st

/-- The rule `TypeNameExpression(node)`. -/
def TypeNameExpression (cr : List (Nat × Nat)) (node : Node) (st : St) : St :=
  if isRangeInComments (some node.range) (some cr) then st
  else if st.isSeen (rangeKey node.range) then st
  else
    let st := st.mark (rangeKey node.range) .yes
    match (node.get "name").text? with
    | some typeName => st.push ⟨"type", some typeName, (node.range.1, node.range.2 + 1)⟩
    | none => st

/-- The rule `ElementaryTypeName(node)`. -/
def ElementaryTypeName (cr : List (Nat × Nat)) (node : Node) (st : St) : St :=
  if isRangeInComments (some node.range) (some cr) then st
  else if st.isSeen (rangeKey node.range) then st
  else
    (st.push ⟨"type", (node.get "name").value?, (node.range.1, node.range.2 + 1)⟩).mark
      (rangeKey node.range) .yes

/-- The rule `VariableDeclaration(node)`; reading `node.typeName.range[1]` throws when
`typeName` is not a node. -/
def VariableDeclaration (code : Str) (cr : List (Nat × Nat)) (node : Node) (st : St) :
    Option St :=
  if isRangeInComments (some node.range) (some cr) then some st
  else if st.isSeen (rangeKey node.range) then some st
  else
    let st := st.mark (rangeKey node.range) .yes
    let afterName : Option St :=
      match (node.get "name").text? with
      | none => some st
      | some varName =>
        match node.get "typeName" with
        | .node typeName =>
          let typeEnd := typeName.range.2
          let nameStart :=
            typeEnd + ((code.drop typeEnd).takeWhile fun c => c = ' ' || c = '\t').length
          let nameEnd := nameStart + varName.length
          if slice code nameStart nameEnd = varName then
            some (st.push ⟨"identifier", some varName, (nameStart, nameEnd)⟩)
          else some st
        | _ => none
    afterName.bind fun st =>
      let afterVisibility : Option St :=
        match (node.get "visibility").text? with
        | none => some st
        | some visibility =>
          match node.get "typeName" with
          | .node typeName => some (pushFound st code "visibility" visibility typeName.range.2)
          | _ => none
      afterVisibility.map fun st =>
        match (node.get "storageLocation").text? with
        | none => st
        | some storageLocation =>
          pushFound st code "storageLocation" storageLocation node.range.1

/-- The rule `StringLiteral(node)`. -/
def StringLiteral (cr : List (Nat × Nat)) (node : Node) (st : St) : St :=
  if isRangeInComments (some node.range) (some cr) then st
  else
    match node.get "value" with
    | .str value =>
      if st.isSeen (rangeKey node.range) then st
      else
        let st := st.mark (rangeKey node.range) .yes
        let st := st.mark (natStr node.range.1) (.len value.length)
        st.push ⟨"string", some value, node.range⟩
    | _ => st

/-- The rule `NumberLiteral(node)`; `node.number.toString()` throws when `number` is
`undefined` or `null`. -/
def NumberLiteral (cr : List (Nat × Nat)) (node : Node) (st : St) : Option St :=
  if isRangeInComments (some node.range) (some cr) then some st
  else
    let key := (node.get "value").toStr ++ rangeKey node.range
    if st.isSeen key then some st
    else
      match node.get "number" with
      | .undefined => none
      | .null => none
      | number =>
        some ((st.push ⟨"number", some number.toStr, (node.range.1, node.range.2 + 1)⟩).mark
          key .yes)

/-- The rule `BinaryOperation(node)`; the parser gives `operator` as a string, and reading
`node.left.range[1]` throws when `left` is not a node. -/
def BinaryOperation (code : Str) (cr : List (Nat × Nat)) (node : Node) (st : St) :
    Option St :=
  if isRangeInComments (some node.range) (some cr) then some st
  else if st.isSeen (rangeKey node.range) then some st
  else
    let st := st.mark (rangeKey node.range) .yes
    match node.get "operator", node.get "left" with
    | .str operator, .node left =>
      let operatorStart := left.range.2
      let operatorEnd := operatorStart + operator.length
      if slice code operatorStart operatorEnd = operator then
        some (st.push ⟨"operator", some operator, (operatorStart, operatorEnd)⟩)
      else some st
    | _, _ => none

/-- The rule `FunctionCall(node)`; reading `node.expression.name` throws when `expression` is
`undefined` or `null`. -/
def FunctionCall (cr : List (Nat × Nat)) (node : Node) (st : St) : Option St :=
  if isRangeInComments (some node.range) (some cr) then some st
  else
    match node.get "expression" with
    | .undefined => none
    | .null => none
    | .node e =>
      let key := (e.get "name").toStr ++ rangeKey node.range
      if st.isSeen key then some st
      else
        let st :=
          if e.type = "Identifier" then
            let finalType :=
              if (e.get "name").value?.any (· ∈ solidityTypes) then "type" else "memberAccess"
            let finalType :=
              if (e.get "name").value? = some "keccak256".toList then "funcName" else finalType
            st.push ⟨finalType, (e.get "name").value?, (e.range.1, e.range.2 + 1)⟩
          else st
        some (st.mark key .yes)
    | _ =>
      let key := "undefined".toList ++ rangeKey node.range
      if st.isSeen key then some st else some (st.mark key .yes)

/-- The rule `ExpressionStatement(node)`: it claims the statement's range and pushes no
token; reading `node.expression.expression.name` throws when the call has no callee. -/
def ExpressionStatement (cr : List (Nat × Nat)) (node : Node) (st : St) : Option St :=
  if isRangeInComments (some node.range) (some cr) then some st
  else if st.isSeen (rangeKey node.range) then some st
  else
    let st := st.mark (rangeKey node.range) .yes
    match node.get "expression" with
    | .node e =>
      if e.type = "FunctionCall" then
        match e.get "expression" with
        | .undefined => none
        | .null => none
        | _ => some st
      else some st
    | _ => some st

end Visitor

/-- The dispatch of `parser.visit` on `node.type` over the rules of the visitor object; the
`:exit` rules do nothing. -/
def visitor (code : Str) (cr : List (Nat × Nat)) (node : Node) (st : St) : Option St :=
  match node.type with
  | "ContractDefinition" => some (Visitor.ContractDefinition code node st)
  | "TypeConversion" => Visitor.TypeConversion cr node st
  | "MemberAccess" => Visitor.MemberAccess cr node st
  | "EventDefinition" => some (Visitor.EventDefinition code node st)
  | "EmitStatement" => some (Visitor.EmitStatement node st)
  | "HexNumber" => some (Visitor.HexNumber cr node st)
  | "StructDefinition" => some (Visitor.StructDefinition code cr node st)
  | "Mapping" => Visitor.Mapping cr node st
  | "FunctionDefinition" => some (Visitor.FunctionDefinition code cr node st)
  | "TypeNameExpression" => some (Visitor.TypeNameExpression cr node st)
  | "ElementaryTypeName" => some (Visitor.ElementaryTypeName cr node st)
  | "VariableDeclaration" => Visitor.VariableDeclaration code cr node st
  | "StringLiteral" => some (Visitor.StringLiteral cr node st)
  | "NumberLiteral" => Visitor.NumberLiteral cr node st
  | "BinaryOperation" => Visitor.BinaryOperation code cr node st
  | "FunctionCall" => Visitor.FunctionCall cr node st
  | "ExpressionStatement" => Visitor.ExpressionStatement cr node st
  | _ => some st

mutual
/-- The traversal `parser.visit(node, visitor)`: the rule of the node's type, then every
property of the node in order. No rule returns `false`, so the walk always descends. -/
def visitNode (rule : Node → St → Option St) : Node → St → Option St
  | .mk ty r ps, st => (rule (.mk ty r ps) st).bind (visitProps rule ps)
/-- The loop `for (const prop in node) visit(node[prop], visitor)`. -/
def visitProps (rule : Node → St → Option St) : List (String × PVal) → St → Option St
  | [], st => some st
  | (_, v) :: rest, st => (visitVal rule v st).bind (visitProps rule rest)
/-- The traversal of any value: a node, an array of values, or a value that is skipped. -/
def visitVal (rule : Node → St → Option St) : PVal → St → Option St
  | .node n, st => visitNode rule n st
  | .arr xs, st => visitVals rule xs st
  | _, st => some st
/-- The call `node.forEach(child => visit(child, visitor))` on an array. -/
def visitVals (rule : Node → St → Option St) : List PVal → St → Option St
  | [], st => some st
  | v :: rest, st => (visitVal rule v st).bind (visitVals rule rest)
end

/-- The punctuation loop `for (let i = 0; i < code.length; i++)`: `i` is the offset of the head
of the text, and `skip` counts the offsets that `i += seen[i]` passes over. -/
def sweep (cr : List (Nat × Nat)) (seen : List (Str × SeenVal)) :
    Str → Nat → Nat → List Token → List Token
  | [], _, _, tokens => tokens
  | _ :: cs, i, skip + 1, tokens => sweep cr seen cs (i + 1) skip tokens
  | char :: cs, i, 0, tokens =>
    match seen.lookup (natStr i) with
    | some v =>
      if v.truthy then sweep cr seen cs (i + 1) v.toNat tokens
      else sweep cr seen cs (i + 1) 0 (sweepAt cr char i tokens)
    | none => sweep cr seen cs (i + 1) 0 (sweepAt cr char i tokens)
where
  /-- The body of the loop at an offset that is not skipped. -/
  sweepAt (cr : List (Nat × Nat)) (char : Char) (i : Nat) (tokens : List Token) : List Token :=
    if char = '(' || char = ')' || char = '\x7b' || char = '\x7d' then
      if isRangeInComments (some (i, i + 1)) (some cr) then tokens
      else
        let tokens := tokens ++ [⟨"parenthesis", some [char], (i, i + 1)⟩]
        if char = '[' || char = ']' then
          if isRangeInComments (some (i, i + 1)) (some cr) then tokens
          else tokens ++ [⟨"brackets", some [char], (i, i + 1)⟩]
        else tokens
    else if char = '[' || char = ']' then
      if isRangeInComments (some (i, i + 1)) (some cr) then tokens
      else tokens ++ [⟨"brackets", some [char], (i, i + 1)⟩]
    else tokens

/-- The length of the match of `return\s|assembly\s` anchored at the head of the text. -/
def matchExtra (text : Str) : Option Nat :=
  if startsWith "return".toList text && ((text.drop 6).head?.any isRegexSpace) then some 7
  else if startsWith "assembly".toList text && ((text.drop 8).head?.any isRegexSpace) then
    some 9
  else none

/-- The `exec` loop over `globalVarsRegexExtra`, with `pos` and `skip` as in
`extractCommentsFrom`. -/
def scanExtra (cr : List (Nat × Nat)) : Str → Nat → Nat → List Token → List Token
  | [], _, _, tokens => tokens
  | _ :: cs, pos, skip + 1, tokens => scanExtra cr cs (pos + 1) skip tokens
  | c :: cs, pos, 0, tokens =>
    match matchExtra (c :: cs) with
    | some len =>
      let tokens :=
        if isRangeInComments (some (pos, pos + len)) (some cr) then tokens
        else tokens ++ [⟨"returnsKeyword", some ((c :: cs).take len), (pos, pos + len)⟩]
      scanExtra cr cs (pos + 1) (len - 1) tokens
    | none => scanExtra cr cs (pos + 1) 0 tokens

/-- The function `collectTokens(ast, code, commentsRange)`: the tree walk from an empty state,
the punctuation sweep, then the `return`/`assembly` scan. -/
def collectTokens (ast : PVal) (code : Str) (commentsRange : List (Nat × Nat)) :
    Option (List Token) :=
  (visitVal (visitor code commentsRange) ast ⟨[], []⟩).map fun st =>
    scanExtra commentsRange code 0 0 (sweep commentsRange st.seen code 0 0 st.tokens)

/-- The function `collectAllTokens(ast, code)`. -/
def collectAllTokens (ast : PVal) (code : Str) : Option (List Token) :=
  let commentTokens := extractComments code
  (collectTokens ast code (commentTokens.map (·.range))).map fun astTokens =>
    sortTokens (commentTokens ++ astTokens)

/-! ## The rendering the specification describes -/

/-- A piece of rendered output: source text copied verbatim, or a colored span. -/
inductive Seg where
  | gap (text : Str)
  | span (type : String) (text : Str)
deriving DecidableEq, Repr

/-- The source text a piece carries. -/
def Seg.text : Seg → Str
  | .gap s => s
  | .span _ s => s

/-- The output text of a piece: a span is wrapped as color, slice, reset. -/
def Seg.render : Seg → Str
  | .gap s => s
  | .span ty s => colorFor ty ++ s ++ colorsReset

/-- The pieces in the specification's words: for each token in order the text between the
previous token's end (`prev`) and its start, then its span; after the last token the remaining
text. -/
def segmentsFrom (code : Str) : Nat → List Token → List Seg
  | prev, [] => [.gap (code.drop prev)]
  | prev, t :: ts =>
    .gap (slice code prev t.range.1) :: .span t.type (slice code t.range.1 t.range.2) ::
      segmentsFrom code t.range.2 ts

/-- The concatenated output of the pieces. -/
def renderSegs : List Seg → Str
  | [] => []
  | s :: rest => s.render ++ renderSegs rest

/-- The concatenated source text of the pieces. -/
def textOfSegs : List Seg → Str
  | [] => []
  | s :: rest => s.text ++ textOfSegs rest

/-- The whitespace of a declaration head: space, tab and the two line-break characters. -/
def isBlank (c : Char) : Bool :=
  c = ' ' || c = '\t' || c = '\n' || c = '\r'

/-- The accessor expressions the specification names as recognized. -/
def recognizedAccessors : List Str :=
  [ "msg.sender", "msg.value", "msg.data", "msg.sig", "msg.gas", "block.coinbase",
    "block.difficulty", "block.gaslimit", "block.number", "block.timestamp", "tx.gasprice",
    "tx.origin" ].map String.toList

/-- Removal from a rendered text of every control code `ESC [ digits m`; `inCode` holds while
a code is being passed over. -/
def stripCodesFrom : Bool → Str → Str
  | _, [] => []
  | true, c :: cs => if c = 'm' then stripCodesFrom false cs else stripCodesFrom true cs
  | false, c :: cs => if c = esc then stripCodesFrom true cs else c :: stripCodesFrom false cs

/-- The rendered text without its color and reset codes. -/
def stripCodes (out : Str) : Str :=
  stripCodesFrom false out

/-! ## Example inputs

Each text comes with the tree the parser builds for it; a node's `range` ends at the offset of
its last character. -/

/-- A token whose value is the given text. -/
def tok (type value : String) (start stop : Nat) : Token :=
  ⟨type, some value.toList, (start, stop)⟩

/-- A `SourceUnit` holding one contract `C` with the given members. -/
def contractC (stop : Nat) (subNodes : List Node) : PVal :=
  .node (.mk "SourceUnit" (0, stop) [("children", .arr [
    .node (.mk "ContractDefinition" (0, stop) [("name", .str "C".toList),
      ("baseContracts", .arr []), ("subNodes", .arr (subNodes.map .node)),
      ("kind", .str "contract".toList)])])])

/-- A `FunctionDefinition` node with an empty parameter list and an empty body. -/
def functionNode (range : Nat × Nat) (name : String) (returnParameters : PVal)
    (body : Nat × Nat) (visibility : String) (stateMutability : PVal) : Node :=
  .mk "FunctionDefinition" range [("name", .str name.toList), ("parameters", .arr []),
    ("returnParameters", returnParameters),
    ("body", .node (.mk "Block" body [("statements", .arr [])])),
    ("visibility", .str visibility.toList), ("modifiers", .arr []), ("override", .null),
    ("isConstructor", .bool false), ("isReceiveEther", .bool false), ("isFallback", .bool false),
    ("isVirtual", .bool false), ("stateMutability", stateMutability)]

/-- An `ElementaryTypeName` node. -/
def elementaryType (range : Nat × Nat) (name : String) : Node :=
  .mk "ElementaryTypeName" range [("name", .str name.toList), ("stateMutability", .null)]

/-- The `VariableDeclaration` node of a state variable `T name`. -/
def variableNode (range : Nat × Nat) (typeName : Node) (name : String)
    (nameRange : Nat × Nat) : Node :=
  .mk "VariableDeclaration" range [("typeName", .node typeName), ("name", .str name.toList),
    ("identifier", .node (.mk "Identifier" nameRange [("name", .str name.toList)])),
    ("expression", .null), ("visibility", .str "default".toList), ("isStateVar", .bool true),
    ("isDeclaredConst", .bool false), ("isIndexed", .bool false),
    ("isImmutable", .bool false), ("override", .null), ("storageLocation", .null)]

/-- The `StateVariableDeclaration` node around one variable. -/
def stateVariable (range : Nat × Nat) (decl : Node) : Node :=
  .mk "StateVariableDeclaration" range [("variables", .arr [.node decl]),
    ("initialValue", .null)]

/-- The text `contract C { function publicFoo() public {} }`. -/
def publicFooCode : Str :=
  "contract C \x7b function publicFoo() public \x7b\x7d \x7d".toList

/-- The tree of `publicFooCode`. -/
def publicFooAst : PVal :=
  contractC 44 [functionNode (13, 42) "publicFoo" .null (41, 42) "public" .null]

/-- The text `contract C { function f() /* public */ public {} }`. -/
def commentedCode : Str :=
  "contract C \x7b function f() /* public */ public \x7b\x7d \x7d".toList

/-- The tree of `commentedCode`. -/
def commentedAst : PVal :=
  contractC 49 [functionNode (13, 47) "f" .null (46, 47) "public" .null]

/-- Whether the span of `t` lies fully inside the span of one of the comment tokens. -/
def insideComment (comments : List Token) (t : Token) : Bool :=
  comments.any fun c => decide (c.range.1 ≤ t.range.1) && decide (t.range.2 ≤ c.range.2)

/-- The text `contract C { function viewer() public view returns (uint) {} }`. -/
def viewerCode : Str :=
  "contract C \x7b function viewer() public view returns (uint) \x7b\x7d \x7d".toList

/-- The `FunctionDefinition` node of `viewerCode`; its one return parameter is the unnamed
`uint`. -/
def viewerFunction : Node :=
  functionNode (13, 59) "viewer"
    (.arr [.node (.mk "VariableDeclaration" (52, 55)
      [("typeName", .node (elementaryType (52, 55) "uint")),
      ("name", .null), ("identifier", .null), ("storageLocation", .null),
      ("isStateVar", .bool false), ("isIndexed", .bool false), ("expression", .null)])])
    (58, 59) "public" (.str "view".toList)

/-- The tree of `viewerCode`. -/
def viewerAst : PVal :=
  contractC 61 [viewerFunction]

/-- Whether two tokens share a character: each starts before the other ends. -/
def overlaps (a b : Token) : Bool :=
  decide (a.range.1 < b.range.2) && decide (b.range.1 < a.range.2)

/-- Whether each token of the list starts at or after the end of the token before it. -/
def startsAfterPrevious : List Token → Bool
  | a :: b :: rest => decide (a.range.2 ≤ b.range.1) && startsAfterPrevious (b :: rest)
  | _ => true

/-- The text of three lines `contract C {`, `// hello`, `uint x;` and a closing `}`. -/
def helloCode : Str :=
  "contract C \x7b\n// hello\nuint x;\n\x7d".toList

/-- The `VariableDeclaration` node of `uint x` in `helloCode`. -/
def helloVariable : Node :=
  variableNode (22, 28) (elementaryType (22, 25) "uint") "x" (27, 27)

/-- The tree of `helloCode`. -/
def helloAst : PVal :=
  contractC 30 [stateVariable (22, 28) helloVariable]

/-- The text `contract C { mapping(address => uint) m; }`. -/
def mappingCode : Str :=
  "contract C \x7b mapping(address => uint) m; \x7d".toList

/-- The `Mapping` node of `mappingCode`. -/
def mappingNode : Node :=
  .mk "Mapping" (13, 36) [("keyType", .node (elementaryType (21, 27) "address")),
    ("keyName", .null), ("valueType", .node (elementaryType (32, 35) "uint")),
    ("valueName", .null)]

/-- The tree of `mappingCode`. -/
def mappingAst : PVal :=
  contractC 41 [stateVariable (13, 39) (variableNode (13, 39) mappingNode "m" (38, 38))]

/-- The node of the expression `msg.sender` at offset 0. -/
def msgSenderNode : Node :=
  .mk "MemberAccess" (0, 9) [("expression", .node (.mk "Identifier" (0, 2)
    [("name", .str "msg".toList)])), ("memberName", .str "sender".toList)]

/-- The node of the expression `a.b` at offset 0. -/
def abNode : Node :=
  .mk "MemberAccess" (0, 2) [("expression", .node (.mk "Identifier" (0, 0)
    [("name", .str "a".toList)])), ("memberName", .str "b".toList)]

/-- The `ContractDefinition` node of the two-line text `contract` / `  Foo {}`. -/
def fooNode : Node :=
  .mk "ContractDefinition" (0, 16) [("name", .str "Foo".toList), ("baseContracts", .arr []),
    ("subNodes", .arr []), ("kind", .str "contract".toList)]

/-! ## The punctuation sweep in the specification's words -/

/-- The offsets, each with its character, at which the punctuation loop runs its body: every
offset but those passed over by `i += seen[i]` at a claimed start. -/
def sweptOffsets (seen : List (Str × SeenVal)) : Str → Nat → Nat → List (Nat × Char)
  | [], _, _ => []
  | _ :: cs, i, skip + 1 => sweptOffsets seen cs (i + 1) skip
  | c :: cs, i, 0 =>
    match seen.lookup (natStr i) with
    | some v =>
      if v.truthy then sweptOffsets seen cs (i + 1) v.toNat
      else (i, c) :: sweptOffsets seen cs (i + 1) 0
    | none => (i, c) :: sweptOffsets seen cs (i + 1) 0

/-- The token owed to the character `c` at offset `i`: none inside a comment span, a
`parenthesis` token for a round or curly bracket, a `brackets` token for a square bracket, none
for any other character. -/
def punctuationToken (cr : List (Nat × Nat)) (i : Nat) (c : Char) : Option Token :=
  if isRangeInComments (some (i, i + 1)) (some cr) then none
  else if c = '(' ∨ c = ')' ∨ c = '\x7b' ∨ c = '\x7d' then
    some ⟨"parenthesis", some [c], (i, i + 1)⟩
  else if c = '[' ∨ c = ']' then some ⟨"brackets", some [c], (i, i + 1)⟩
  else none

/-- The token type the specification gives a call whose callee is the bare identifier `name`:
`funcName` for `keccak256`, otherwise `type` for a built-in type name, otherwise
`memberAccess`. -/
def calleeTokenType (name : Str) : String :=
  if name = "keccak256".toList then "funcName"
  else if name ∈ solidityTypes then "type"
  else "memberAccess"

/-- The node of the call `uint256(x)` at offset 0. -/
def castCallNode : Node :=
  .mk "FunctionCall" (0, 9) [("expression", .node (.mk "Identifier" (0, 6)
      [("name", .str "uint256".toList)])),
    ("arguments", .arr [.node (.mk "Identifier" (8, 8) [("name", .str "x".toList)])]),
    ("names", .arr []), ("identifiers", .arr [])]

/-- The form of a comment's text in the specification's words: it begins with `//` and
holds no line break, or it begins with `/*` and ends at the first `*/` after that marker (no
`*/` occurs in the text between the marker and the closing `*/`). -/
def IsCommentText (v : Str) : Prop :=
  (∃ body, v = '/' :: '/' :: body ∧ ∀ c ∈ body, isLineTerminator c = false) ∨
    (∃ body, v = '/' :: '*' :: (body ++ ['*', '/']) ∧
      ∀ pre suf, body ≠ pre ++ '*' :: '/' :: suf)

/-! ## The caller `highlightSolidityCode` of `toDiscordAnsi.mjs` -/

/-- The external parser: `parser.parse` and `parser.tokenize`, each giving its result or the
message of the error it throws. -/
structure Parser where
  parse : Str → Except Str PVal
  tokenize : Str → Except Str Unit

/-- The function `parseSolidity(code)` of `parseSolidity.mjs`, read at its `.ast`: a first
`parse` and `tokenize` outside the `try`, then the same two calls inside it, whose error is
thrown again. -/
def parseSolidity (p : Parser) (code : Str) : Except Str PVal :=
  match p.parse code with
  | .error message => .error message
  | .ok _ =>
    match p.tokenize code with
    | .error message => .error message
    | .ok _ =>
      match p.parse code with
      | .error message => .error message
      | .ok ast =>
        match p.tokenize code with
        | .error message => .error message
        | .ok _ => .ok ast

/-- An error that leaves `highlightSolidityCode`: one thrown by the parser, with its message,
or the `TypeError` of a rule of the tree walk. -/
inductive Failure where
  | parseError (message : Str)
  | typeError
deriving DecidableEq, Repr

deriving instance DecidableEq for Except

/-- The message that triggers the wrap-and-reparse fallback. -/
def nullGetText : Str :=
  "Cannot read properties of null (reading \x27getText\x27)".toList

/-- The call `s.includes(sub)`. -/
def includes (s sub : Str) : Bool :=
  (indexOf s sub 0).isSome

/-- The template literal that wraps the text in a contract named `Dummy`. -/
def wrapDummy (code : Str) : Str :=
  "contract Dummy \x7b\n".toList ++ code ++ "\n\x7d".toList

/-- The call `s.split('\n')`. -/
def splitLines : Str → List Str
  | [] => [[]]
  | c :: cs =>
    if c = '\n' then [] :: splitLines cs
    else
      match splitLines cs with
      | line :: lines => (c :: line) :: lines
      | [] => [[c]]

/-- The call `lines.join('\n')`. -/
def joinLines : List Str → Str
  | [] => []
  | [line] => line
  | line :: rest => line ++ '\n' :: joinLines rest

/-- The expression `coloredCode.split('\n').slice(1, -1).join('\n')`. -/
def stripWrapperLines (coloredCode : Str) : Str :=
  joinLines ((splitLines coloredCode).drop 1).dropLast

/-- The rendering of `code` with the tree `ast`: `applyColors(code, collectAllTokens(ast, code))`,
failing when a rule of the walk throws. -/
def renderWith (ast : PVal) (code : Str) : Except Failure Str :=
  match collectAllTokens ast code with
  | some astTokens => .ok (applyColors code astTokens)
  | none => .error .typeError

/-- The function `highlightSolidityCode(code)`, over the parser it calls. An error of the
first parse is caught; when its message holds `nullGetText` the wrapped text is parsed in its
place, and an error of that parse leaves the function. Otherwise `ast` stays `undefined`. -/
def highlightSolidityCode (p : Parser) (code : Str) : Except Failure Str :=
  match parseSolidity p code with
  | .ok ast => renderWith ast code
  | .error message =>
    if includes message nullGetText then
      match parseSolidity p (wrapDummy code) with
      | .ok ast => (renderWith ast (wrapDummy code)).map stripWrapperLines
      | .error second => .error (.parseError second)
    else renderWith .undefined code

/-- A parser that fails on the text `original` with the message `first` and on every other
text with the message `second`. -/
def failingParser (original first second : Str) : Parser where
  parse := fun code => if code = original then .error first else .error second
  tokenize := fun _ => .ok ()

/-! ## More example inputs -/

/-- The `VariableDeclaration` node of a state variable `T name = value`. -/
def variableNodeInit (range : Nat × Nat) (typeName : Node) (name : String)
    (nameRange : Nat × Nat) (expression : Node) : Node :=
  .mk "VariableDeclaration" range [("typeName", .node typeName), ("name", .str name.toList),
    ("identifier", .node (.mk "Identifier" nameRange [("name", .str name.toList)])),
    ("expression", .node expression), ("visibility", .str "default".toList),
    ("isStateVar", .bool true), ("isDeclaredConst", .bool false), ("isIndexed", .bool false),
    ("isImmutable", .bool false), ("override", .null), ("storageLocation", .null)]

/-- The tree of `contract C { T name = value; }`: the initial value is held both by the
variable (`expression`) and by the declaration (`initialValue`). -/
def contractInit (stop : Nat) (range : Nat × Nat) (typeName : Node) (name : String)
    (nameRange : Nat × Nat) (expression : Node) : PVal :=
  contractC stop [.mk "StateVariableDeclaration" range
    [("variables", .arr [.node (variableNodeInit range typeName name nameRange expression)]),
      ("initialValue", .node expression)]]

/-- A `StringLiteral` node of one fragment. -/
def stringLiteral (range : Nat × Nat) (value : Str) : Node :=
  .mk "StringLiteral" range [("value", .str value), ("parts", .arr [.str value]),
    ("isUnicode", .arr [.bool false])]

/-- A `NumberLiteral` node. -/
def numberLiteral (range : Nat × Nat) (number : String) : Node :=
  .mk "NumberLiteral" range [("number", .str number.toList), ("subdenomination", .null)]

/-- The text `contract C { string s = "\"("; }`, whose literal holds an escaped quote and
an opening parenthesis. -/
def escapedCode : Str :=
  "contract C \x7b string s = \x22\\\x22(\x22; \x7d".toList

/-- The `StringLiteral` node of `escapedCode`; the parser gives the value without the outer
quotes and with `\"` turned into `"`. -/
def escapedLiteral : Node :=
  stringLiteral (24, 28) "\x22(".toList

/-- The tree of `escapedCode`. -/
def escapedAst : PVal :=
  contractInit 31 (13, 29) (elementaryType (13, 18) "string") "s" (20, 20) escapedLiteral

/-- The text `contract C { uint x = 1+2; }`. -/
def sumCode : Str :=
  "contract C \x7b uint x = 1+2; \x7d".toList

/-- The `BinaryOperation` node of `1+2` in `sumCode`. -/
def sumNode : Node :=
  .mk "BinaryOperation" (22, 24) [("operator", .str "+".toList),
    ("left", .node (numberLiteral (22, 22) "1")), ("right", .node (numberLiteral (24, 24) "2"))]

/-- The tree of `sumCode`. -/
def sumAst : PVal :=
  contractInit 27 (13, 25) (elementaryType (13, 16) "uint") "x" (18, 18) sumNode

/-- The text `contract C { string s = "ab"; }`. -/
def quotedCode : Str :=
  "contract C \x7b string s = \x22ab\x22; \x7d".toList

/-- The `StringLiteral` node of `quotedCode`. -/
def quotedLiteral : Node :=
  stringLiteral (24, 27) "ab".toList

/-- The tree of `quotedCode`. -/
def quotedAst : PVal :=
  contractInit 30 (13, 28) (elementaryType (13, 18) "string") "s" (20, 20) quotedLiteral

/-- The text `contract C { function f(uint) public {} }`. -/
def unnamedCode : Str :=
  "contract C \x7b function f(uint) public \x7b\x7d \x7d".toList

/-- The parameter of `f` in `unnamedCode`: a `VariableDeclaration` without a name, whose range
is that of its type. -/
def unnamedParameter : Node :=
  .mk "VariableDeclaration" (24, 27) [("typeName", .node (elementaryType (24, 27) "uint")),
    ("name", .null), ("identifier", .null), ("storageLocation", .null),
    ("isStateVar", .bool false), ("isIndexed", .bool false), ("expression", .null)]

/-- The tree of `unnamedCode`. -/
def unnamedAst : PVal :=
  contractC 40 [.mk "FunctionDefinition" (13, 38) [("name", .str "f".toList),
    ("parameters", .arr [.node unnamedParameter]), ("returnParameters", .null),
    ("body", .node (.mk "Block" (37, 38) [("statements", .arr [])])),
    ("visibility", .str "public".toList), ("modifiers", .arr []), ("override", .null),
    ("isConstructor", .bool false), ("isReceiveEther", .bool false), ("isFallback", .bool false),
    ("isVirtual", .bool false), ("stateMutability", .null)]]

/-- The text `string s = "http://x";`. -/
def urlCode : Str :=
  "string s = \x22http://x\x22;".toList

/-- Whether some reported comment starts strictly between the offsets `a` and `b`. -/
def commentStartsBetween (code : Str) (a b : Nat) : Bool :=
  (extractComments code).any fun t => decide (a < t.range.1) && decide (t.range.1 < b)

/-! ## Definitions for the range test, the wrapper lines and the token values -/

/-- Whether two ranges with inclusive ends share an offset: each starts at or before the end
of the other. -/
def rangesOverlap (r cr : Nat × Nat) : Bool :=
  decide (r.1 ≤ cr.2) && decide (cr.1 ≤ r.2)

/-- The test in the words of the doc comment of `isRangeInComments`, "True if overlapping, else
false": whether the range overlaps one of the comment ranges. -/
def overlapsAnyComment (r : Nat × Nat) (commentRanges : List (Nat × Nat)) : Bool :=
  commentRanges.any fun cr => rangesOverlap r cr

/-- The part of a token that `applyColors` reads: its type and its range. -/
def Token.shape (t : Token) : String × (Nat × Nat) :=
  (t.type, t.range)

/-- The text `uint x;`, which the parser of `dummyParser` rejects when it stands alone. -/
def bareCode : Str :=
  "uint x;".toList

/-- The tree of `wrapDummy bareCode`, the three lines `contract Dummy {`, `uint x;`, `}`. -/
def dummyAst : PVal :=
  .node (.mk "SourceUnit" (0, 25) [("children", .arr [
    .node (.mk "ContractDefinition" (0, 25) [("name", .str "Dummy".toList),
      ("baseContracts", .arr []),
      ("subNodes", .arr [.node (stateVariable (17, 23)
        (variableNode (17, 23) (elementaryType (17, 20) "uint") "x" (22, 22)))]),
      ("kind", .str "contract".toList)])])])

/-- A parser that fails on `bareCode` with the message of the fallback and gives `dummyAst` for
any other text. -/
def dummyParser : Parser where
  parse := fun code => if code = bareCode then .error nullGetText else .ok dummyAst
  tokenize := fun _ => .ok ()

/-- The text `interface I {}`. -/
def interfaceCode : Str :=
  "interface I \x7b\x7d".toList

/-- The `ContractDefinition` node of `interfaceCode`, of kind `interface`. -/
def interfaceNode : Node :=
  .mk "ContractDefinition" (0, 13) [("name", .str "I".toList), ("baseContracts", .arr []),
    ("subNodes", .arr []), ("kind", .str "interface".toList)]

/-- The tree of `interfaceCode`. -/
def interfaceAst : PVal :=
  .node (.mk "SourceUnit" (0, 13) [("children", .arr [.node interfaceNode])])

/-- The text `contract C { constructor() {} }`. -/
def constructorCode : Str :=
  "contract C \x7b constructor() \x7b\x7d \x7d".toList

/-- The `FunctionDefinition` node of the constructor in `constructorCode`: it has no name. -/
def constructorNode : Node :=
  .mk "FunctionDefinition" (13, 28) [("name", .null), ("parameters", .arr []),
    ("returnParameters", .null),
    ("body", .node (.mk "Block" (27, 28) [("statements", .arr [])])),
    ("visibility", .str "default".toList), ("modifiers", .arr []), ("override", .null),
    ("isConstructor", .bool true), ("isReceiveEther", .bool false), ("isFallback", .bool false),
    ("isVirtual", .bool false), ("stateMutability", .null)]

/-- The tree of `constructorCode`. -/
def constructorAst : PVal :=
  contractC 30 [constructorNode]

/-- The text `contract C { function g() public { f().now; } }`. -/
def callMemberCode : Str :=
  "contract C \x7b function g() public \x7b f().now; \x7d \x7d".toList

/-- The node of the call `f()` in `callMemberCode`. -/
def callNode : Node :=
  .mk "FunctionCall" (35, 37) [("expression", .node (.mk "Identifier" (35, 35)
      [("name", .str "f".toList)])),
    ("arguments", .arr []), ("names", .arr []), ("identifiers", .arr [])]

/-- The `MemberAccess` node of `f().now` in `callMemberCode`: its inner expression is the
call. -/
def callMemberNode : Node :=
  .mk "MemberAccess" (35, 41) [("expression", .node callNode),
    ("memberName", .str "now".toList)]

/-- The tree of `callMemberCode`. -/
def callMemberAst : PVal :=
  contractC 46 [.mk "FunctionDefinition" (13, 44) [("name", .str "g".toList),
    ("parameters", .arr []), ("returnParameters", .null),
    ("body", .node (.mk "Block" (33, 44) [("statements", .arr [
      .node (.mk "ExpressionStatement" (35, 42) [("expression", .node callMemberNode)])])])),
    ("visibility", .str "public".toList), ("modifiers", .arr []), ("override", .null),
    ("isConstructor", .bool false), ("isReceiveEther", .bool false), ("isFallback", .bool false),
    ("isVirtual", .bool false), ("stateMutability", .null)]]

/-- Whether a token's value is the text at its span: `code.slice(range[0], range[1]) === value`. -/
def Token.faithful (code : Str) (t : Token) : Prop :=
  t.value = some (slice code t.range.1 t.range.2)

/-- The token types that `extractComments` and `collectTokens` write in a token literal. -/
def emittedTypes : List String :=
  [ "keyword", "type", "string", "identifier", "number", "hexNumber", "operator", "comment",
    "visibility", "contractName", "eventName", "funcName", "structName", "memberAccess",
    "returnsKeyword", "parenthesis", "brackets", "storageLocation" ]

/-- Whether a rule took the state `st` to `st'` by pushing tokens only, each of them with the
property `P`. -/
def Pushes (P : Token → Prop) (st st' : St) : Prop :=
  ∃ l, st'.tokens = st.tokens ++ l ∧ ∀ t ∈ l, P t

/-- What a verify-or-search rule may push: a token of an emitted type that, unless it is the
fixed-text `keyword` token of the rule, is valued with the text at its span. -/
def Token.sound (code : Str) (t : Token) : Prop :=
  t.type ∈ emittedTypes ∧ (t.type ≠ "keyword" → t.faithful code)

/-- The merged token list of `commentedCode`. -/
def commentedTokens : List Token :=
  [tok "keyword" "contract" 0 8, tok "contractName" "C" 9 10, tok "parenthesis" "\x7b" 11 12,
    tok "keyword" "function" 13 21, tok "funcName" "f" 22 23, tok "parenthesis" "(" 23 24,
    tok "parenthesis" ")" 24 25, tok "comment" "/* public */" 26 38,
    tok "visibility" "public" 29 35, tok "parenthesis" "\x7b" 46 47,
    tok "parenthesis" "\x7d" 47 48, tok "parenthesis" "\x7d" 49 50]


/-! ## Facts about the string primitives -/

set_option maxRecDepth 100000

theorem slice_append_drop (code : Str) {a b : Nat} (h : a ≤ b) :
    slice code a b ++ code.drop b = code.drop a := by
  unfold slice
  have hb : code.drop b = (code.drop a).drop (b - a) := by
    rw [List.drop_drop]
    congr 1
    omega
  rw [hb, List.take_append_drop]

theorem slice_self (code : Str) (a : Nat) : slice code a a = [] := by
  simp [slice]

/-! ## The renderer on ordered, non-overlapping tokens -/

theorem foldl_applyStep (code : Str) :
    ∀ (toks : List Token) (out : Str) (cur : Nat),
      (∀ t ∈ toks, cur ≤ t.range.1) →
      (∀ t ∈ toks, t.range.1 ≤ t.range.2) →
      toks.Pairwise (fun a b => a.range.2 ≤ b.range.1) →
      (let acc := toks.foldl (applyStep code) (out, cur)
       if acc.2 < code.length then acc.1 ++ code.drop acc.2 else acc.1) =
        out ++ renderSegs (segmentsFrom code cur toks) := by
  intro toks
  induction toks with
  | nil =>
    intro out cur _ _ _
    simp only [List.foldl_nil, segmentsFrom, renderSegs, Seg.render, List.append_nil]
    split
    · rfl
    · rw [List.drop_of_length_le (by omega)]
      simp
  | cons t ts ih =>
    intro out cur hcur hle hd
    have hstart : cur ≤ t.range.1 := hcur t (List.mem_cons_self _ _)
    have hstep : applyStep code (out, cur) t =
        (out ++ slice code cur t.range.1 ++
          (colorFor t.type ++ slice code t.range.1 t.range.2 ++ colorsReset), t.range.2) := by
      unfold applyStep
      by_cases hlt : cur < t.range.1
      · simp [hlt]
      · have heq : cur = t.range.1 := by omega
        simp [heq, slice_self]
    rw [List.foldl_cons, hstep]
    rw [List.pairwise_cons] at hd
    rw [ih _ _ (fun u hu => hd.1 u hu) (fun u hu => hle u (List.mem_cons_of_mem _ hu)) hd.2]
    simp [segmentsFrom, renderSegs, Seg.render, List.append_assoc]

theorem textOfSegs_segmentsFrom (code : Str) :
    ∀ (toks : List Token) (cur : Nat),
      (∀ t ∈ toks, cur ≤ t.range.1) →
      (∀ t ∈ toks, t.range.1 ≤ t.range.2) →
      toks.Pairwise (fun a b => a.range.2 ≤ b.range.1) →
      textOfSegs (segmentsFrom code cur toks) = code.drop cur := by
  intro toks
  induction toks with
  | nil =>
    intro cur _ _ _
    simp [segmentsFrom, textOfSegs, Seg.text]
  | cons t ts ih =>
    intro cur hcur hle hd
    rw [List.pairwise_cons] at hd
    have h1 : cur ≤ t.range.1 := hcur t (List.mem_cons_self _ _)
    have h2 : t.range.1 ≤ t.range.2 := hle t (List.mem_cons_self _ _)
    simp only [segmentsFrom, textOfSegs, Seg.text]
    rw [ih _ (fun u hu => hd.1 u hu) (fun u hu => hle u (List.mem_cons_of_mem _ hu)) hd.2]
    rw [slice_append_drop code h2, slice_append_drop code h1]

theorem sortTokens_of_sorted {toks : List Token}
    (hs : toks.Pairwise (fun a b => a.range.1 ≤ b.range.1)) : sortTokens toks = toks :=
  List.Sorted.insertionSort_eq hs

/-- C2. On a token list whose ranges are in bounds, ordered by start and pairwise
non-overlapping (a later token starts at or after the end of every earlier one), `applyColors`
returns exactly the pieces the specification lists: per token the gap since the previous end,
then color, slice and reset, and at the end the remaining text. The source text of those pieces
is `code`, each character once, and for no token at all the output is `code`. -/
theorem applyColors_ordered_disjoint (code : Str) (toks : List Token)
    (hb : ∀ t ∈ toks, t.range.1 ≤ t.range.2 ∧ t.range.2 ≤ code.length)
    (hs : toks.Pairwise (fun a b => a.range.1 ≤ b.range.1))
    (hd : toks.Pairwise (fun a b => a.range.2 ≤ b.range.1)) :
    applyColors code toks = renderSegs (segmentsFrom code 0 toks) ∧
      textOfSegs (segmentsFrom code 0 toks) = code ∧
      applyColors code [] = code := by
  refine ⟨?_, ?_, ?_⟩
  · unfold applyColors
    rw [sortTokens_of_sorted hs]
    have h := foldl_applyStep code toks [] 0 (fun _ _ => Nat.zero_le _)
      (fun t ht => (hb t ht).1) hd
    simpa using h
  · have h := textOfSegs_segmentsFrom code toks 0 (fun _ _ => Nat.zero_le _)
      (fun t ht => (hb t ht).1) hd
    simpa using h
  · have h := foldl_applyStep code [] [] 0 (by simp) (by simp) List.Pairwise.nil
    unfold applyColors
    have hs0 : sortTokens [] = [] := rfl
    rw [hs0]
    simp [segmentsFrom, renderSegs, Seg.render] at h
    simp [h]

/-- A rendering of `abc def` with two tokens, as an instance of C2. -/
theorem applyColors_ordered_disjoint_witness :
    applyColors "abc def".toList [⟨"type", none, (0, 3)⟩, ⟨"keyword", none, (4, 7)⟩] =
        renderSegs (segmentsFrom "abc def".toList 0
          [⟨"type", none, (0, 3)⟩, ⟨"keyword", none, (4, 7)⟩]) ∧
      textOfSegs (segmentsFrom "abc def".toList 0
          [⟨"type", none, (0, 3)⟩, ⟨"keyword", none, (4, 7)⟩]) = "abc def".toList ∧
      applyColors "abc def".toList [] = "abc def".toList :=
  applyColors_ordered_disjoint "abc def".toList
    [⟨"type", none, (0, 3)⟩, ⟨"keyword", none, (4, 7)⟩] (by decide) (by decide) (by decide)

/-! ## The merge of `collectAllTokens` -/

theorem sortTokens_perm (l : List Token) : (sortTokens l).Perm l :=
  List.perm_insertionSort startLE l

theorem sortTokens_sorted (l : List Token) :
    (sortTokens l).Pairwise (fun a b => a.range.1 ≤ b.range.1) :=
  List.sorted_insertionSort startLE l

theorem sortTokens_filter_start (l : List Token) (s : Nat) :
    (sortTokens l).filter (fun t => decide (t.range.1 = s)) =
      l.filter (fun t => decide (t.range.1 = s)) := by
  have hpw : (l.filter (fun t => decide (t.range.1 = s))).Pairwise startLE := by
    apply List.pairwise_of_forall_mem_list
    intro a ha b hb
    have ha2 := (List.mem_filter.mp ha).2
    have hb2 := (List.mem_filter.mp hb).2
    simp only [decide_eq_true_eq] at ha2 hb2
    show a.range.1 ≤ b.range.1
    omega
  have hsub : List.Sublist (l.filter (fun t => decide (t.range.1 = s))) (sortTokens l) :=
    List.sublist_insertionSort hpw (List.filter_sublist l)
  have hsub2 : List.Sublist (l.filter (fun t => decide (t.range.1 = s)))
      ((sortTokens l).filter (fun t => decide (t.range.1 = s))) := by
    have h := hsub.filter (fun t => decide (t.range.1 = s))
    simpa [List.filter_filter] using h
  have hlen : ((sortTokens l).filter (fun t => decide (t.range.1 = s))).length =
      (l.filter (fun t => decide (t.range.1 = s))).length :=
    ((sortTokens_perm l).filter _).length_eq
  exact (hsub2.eq_of_length hlen.symm).symm

theorem sortTokens_pair (l₁ l₂ : List Token) {c t : Token} (hc : c ∈ l₁) (ht : t ∈ l₂)
    (h : c.range.1 ≤ t.range.1) : List.Sublist [c, t] (sortTokens (l₁ ++ l₂)) := by
  have hst : startLE c t := h
  apply List.pair_sublist_insertionSort hst
  have h1 : List.Sublist [c] l₁ := List.singleton_sublist.mpr hc
  have h2 : List.Sublist [t] l₂ := List.singleton_sublist.mpr ht
  simpa using h1.append h2

/-- C4. When the tree walk yields `astTokens`, `collectAllTokens` returns a permutation of the
comment tokens followed by `astTokens`, with non-decreasing start offsets, in which the tokens
of any one start offset keep the order they have in that concatenation; so a comment token
precedes a tree token that starts at the same offset. -/
theorem collectAllTokens_stable_merge (ast : PVal) (code : Str) (astTokens : List Token)
    (h : collectTokens ast code ((extractComments code).map (·.range)) = some astTokens) :
    ∃ result, collectAllTokens ast code = some result ∧
      result.Perm (extractComments code ++ astTokens) ∧
      result.Pairwise (fun a b => a.range.1 ≤ b.range.1) ∧
      (∀ s, result.filter (fun t => decide (t.range.1 = s)) =
        (extractComments code ++ astTokens).filter (fun t => decide (t.range.1 = s))) ∧
      (∀ c ∈ extractComments code, ∀ t ∈ astTokens, c.range.1 = t.range.1 →
        List.Sublist [c, t] result) := by
  refine ⟨sortTokens (extractComments code ++ astTokens), ?_, sortTokens_perm _,
    sortTokens_sorted _, sortTokens_filter_start _, ?_⟩
  · simp [collectAllTokens, h]
  · intro c hc t ht heq
    exact sortTokens_pair _ _ hc ht (Nat.le_of_eq heq)

/-! ## Name resolution after a declaration keyword -/

theorem startsWith_append (s rest : Str) : startsWith s (s ++ rest) = true := by
  induction s with
  | nil => simp [startsWith, List.isPrefixOf]
  | cons a s ih =>
    simp only [startsWith, List.cons_append, List.isPrefixOf] at ih ⊢
    simp [ih]

theorem startsWith_cons_ne {a b : Char} (s text : Str) (h : b ≠ a) :
    startsWith (a :: s) (b :: text) = false := by
  simp only [startsWith, List.isPrefixOf]
  have : (a == b) = false := by
    rw [beq_eq_false_iff_ne]
    exact fun hab => h hab.symm
  simp [this]

theorem indexOfAux_after_gap (n : Char) (ns rest : Str) :
    ∀ (ws : Str) (k : Nat), (∀ c ∈ ws, c ≠ n) →
      indexOfAux (n :: ns) (ws ++ (n :: ns) ++ rest) k = some (k + ws.length) := by
  intro ws
  induction ws with
  | nil =>
    intro k _
    have h := startsWith_append (n :: ns) rest
    simp only [List.nil_append, List.cons_append] at h ⊢
    simp [indexOfAux, h]
  | cons w ws ih =>
    intro k hws
    have hw : w ≠ n := hws w (List.mem_cons_self _ _)
    have hstep : indexOfAux (n :: ns) (w :: (ws ++ (n :: ns) ++ rest)) k =
        indexOfAux (n :: ns) (ws ++ (n :: ns) ++ rest) (k + 1) := by
      simp [indexOfAux, startsWith_cons_ne ns _ hw]
    rw [List.cons_append, List.cons_append, hstep,
      ih (k + 1) (fun c hc => hws c (List.mem_cons_of_mem _ hc))]
    simp only [List.length_cons]
    congr 1
    omega

theorem indexOf_after_gap (base ws rest : Str) (n : Char) (ns : Str)
    (hws : ∀ c ∈ ws, c ≠ n) :
    indexOf (base ++ (ws ++ (n :: ns) ++ rest)) (n :: ns) base.length =
      some (base.length + ws.length) := by
  unfold indexOf
  rw [List.drop_left, List.length_append, Nat.min_eq_left (Nat.le_add_right _ _)]
  exact indexOfAux_after_gap n ns rest ws base.length hws

theorem slice_after_one (base ws rest name : Str) (w : Char) (hw : ws = [w]) :
    slice (base ++ (ws ++ name ++ rest)) (base.length + 1) (base.length + 1 + name.length) =
      name := by
  subst hw
  unfold slice
  have h1 : (base ++ ([w] ++ name ++ rest)).drop (base.length + 1) = name ++ rest := by
    rw [← List.drop_drop, List.drop_left]
    simp
  rw [h1]
  have h2 : base.length + 1 + name.length - (base.length + 1) = name.length := by omega
  rw [h2, List.take_left]

theorem slice_after_two (base ws rest : Str) (w w2 n : Char) (ns : Str) (h2 : w2 ≠ n) :
    slice (base ++ ((w :: w2 :: ws) ++ (n :: ns) ++ rest)) (base.length + 1)
      (base.length + 1 + (n :: ns).length) ≠ n :: ns := by
  unfold slice
  have h1 : (base ++ ((w :: w2 :: ws) ++ (n :: ns) ++ rest)).drop (base.length + 1) =
      w2 :: (ws ++ (n :: ns) ++ rest) := by
    rw [← List.drop_drop, List.drop_left]
    simp
  rw [h1]
  have h3 : base.length + 1 + (n :: ns).length - (base.length + 1) = ns.length + 1 := by
    simp only [List.length_cons]
    omega
  rw [h3, List.take_succ_cons]
  intro h
  exact h2 (List.cons.inj h).1

/-- The name resolution shared by the declaration rules: after the keyword, a run of blanks
and then the name, the pushed token lies exactly on the name. -/
theorem safeFindNameAndPush_after_blanks (pre kw ws name rest : Str) (node : Node) (st : St)
    (ty : String) (hname : node.get "name" = .str name) (hstart : node.range.1 = pre.length)
    (hne : name ≠ []) (hws : ws ≠ []) (hblank : ∀ c ∈ ws, isBlank c = true)
    (hhead : ∀ c, name.head? = some c → isBlank c = false) :
    safeFindNameAndPush node st (pre ++ kw ++ ws ++ name ++ rest) kw ty =
      st.push ⟨ty, some name, (pre.length + kw.length + ws.length,
        pre.length + kw.length + ws.length + name.length)⟩ := by
  obtain ⟨n, ns, rfl⟩ := List.exists_cons_of_ne_nil hne
  have hn : isBlank n = false := hhead n rfl
  have hwsn : ∀ c ∈ ws, c ≠ n := by
    intro c hc hcn
    have := hblank c hc
    rw [hcn, hn] at this
    exact Bool.noConfusion this
  have hcode : pre ++ kw ++ ws ++ (n :: ns) ++ rest = (pre ++ kw) ++ (ws ++ (n :: ns) ++ rest) := by
    simp [List.append_assoc]
  have hlen : (pre ++ kw).length = pre.length + kw.length := List.length_append _ _
  have htext : (node.get "name").text? = some (n :: ns) := by
    rw [hname]
    simp [PVal.text?]
  unfold safeFindNameAndPush
  rw [htext, hstart, hcode]
  simp only []
  rw [← hlen]
  match ws, hws, hwsn with
  | [w], _, _ =>
    rw [slice_after_one (pre ++ kw) [w] rest (n :: ns) w rfl]
    simp
  | w :: w2 :: ws, _, hwsn =>
    have hw2 : w2 ≠ n := hwsn w2 (by simp)
    rw [if_neg (slice_after_two (pre ++ kw) ws rest w w2 n ns hw2)]
    rw [indexOf_after_gap (pre ++ kw) (w :: w2 :: ws) rest n ns hwsn]

theorem pushFound_tokens (st : St) (code : Str) (ty : String) (w : Str) (k : Nat) :
    ∃ l, (pushFound st code ty w k).tokens = st.tokens ++ l ∧ ∀ t ∈ l, t.type = ty := by
  unfold pushFound
  cases indexOf code w k with
  | none => exact ⟨[], by simp, by simp⟩
  | some found => exact ⟨[⟨ty, some w, (found, found + w.length)⟩], by simp [St.push], by simp⟩

/-- C6. For a contract, event, struct or function declaration whose node starts at its keyword
and whose name follows the keyword after one or several blanks (spaces, tabs, line breaks), the
name token the rule emits lies exactly on the name: it starts at the first character after the
blanks and has the name's length. The struct and function rules are taken on a node that is
not skipped as lying inside a comment; for a function, the modifier tokens pushed before the
name and the `returns` token pushed after it are of other types. -/
theorem declaration_name_token (pre ws name rest : Str) (node : Node) (st : St)
    (cr : List (Nat × Nat))
    (hname : node.get "name" = .str name) (hstart : node.range.1 = pre.length)
    (hne : name ≠ []) (hws : ws ≠ []) (hblank : ∀ c ∈ ws, isBlank c = true)
    (hhead : ∀ c, name.head? = some c → isBlank c = false) :
    (Visitor.ContractDefinition (pre ++ "contract".toList ++ ws ++ name ++ rest) node st).tokens
        = st.tokens ++
          [⟨"keyword", some "contract".toList, (pre.length, pre.length + 8)⟩,
           ⟨"contractName", some name,
            (pre.length + 8 + ws.length, pre.length + 8 + ws.length + name.length)⟩] ∧
      (Visitor.EventDefinition (pre ++ "event".toList ++ ws ++ name ++ rest) node st).tokens
        = st.tokens ++
          [⟨"keyword", some "event".toList, (pre.length, pre.length + 5)⟩,
           ⟨"eventName", some name,
            (pre.length + 5 + ws.length, pre.length + 5 + ws.length + name.length)⟩] ∧
      (isRangeInComments (some node.range) (some cr) = false →
        (Visitor.StructDefinition (pre ++ "struct".toList ++ ws ++ name ++ rest) cr node
            st).tokens
          = st.tokens ++
            [⟨"keyword", some "struct".toList, (pre.length, pre.length + 6)⟩,
             ⟨"structName", some name,
              (pre.length + 6 + ws.length, pre.length + 6 + ws.length + name.length)⟩]) ∧
      (isRangeInComments (some node.range) (some cr) = false →
        ∃ mods after,
          (Visitor.FunctionDefinition (pre ++ "function".toList ++ ws ++ name ++ rest) cr node
              st).tokens
            = st.tokens ++
              [⟨"keyword", some "function".toList, (pre.length, pre.length + 8)⟩] ++ mods ++
              [⟨"funcName", some name,
                (pre.length + 8 + ws.length, pre.length + 8 + ws.length + name.length)⟩] ++
              after ∧
          (∀ t ∈ mods, t.type = "visibility") ∧ (∀ t ∈ after, t.type = "returnsKeyword")) := by
  have key := fun (kw : Str) (st0 : St) (ty : String) =>
    safeFindNameAndPush_after_blanks pre kw ws name rest node st0 ty hname hstart hne hws
      hblank hhead
  refine ⟨?_, ?_, ?_, ?_⟩
  · have h : Visitor.ContractDefinition (pre ++ "contract".toList ++ ws ++ name ++ rest) node st
        = safeFindNameAndPush node
            (st.push ⟨"keyword", some "contract".toList, (node.range.1, node.range.1 + 8)⟩)
            (pre ++ "contract".toList ++ ws ++ name ++ rest) "contract".toList
            "contractName" := rfl
    rw [h, key, hstart]
    simp [St.push]
  · unfold Visitor.EventDefinition
    rw [key, hstart]
    simp [St.push]
  · intro hc
    unfold Visitor.StructDefinition
    rw [hc, key, hstart]
    simp [St.push]
  · intro hc
    unfold Visitor.FunctionDefinition
    rw [hc]
    simp only [Bool.false_eq_true, if_false]
    generalize hcode : pre ++ "function".toList ++ ws ++ name ++ rest = code
    have hvis : ∀ (q : PVal) (s0 : St), ∃ l,
        (match q.text? with
          | some visibility => pushFound s0 code "visibility" visibility node.range.1
          | none => s0).tokens = s0.tokens ++ l ∧ ∀ t ∈ l, t.type = "visibility" := by
      intro q s0
      cases q.text? with
      | none => exact ⟨[], by simp, by simp⟩
      | some v => exact pushFound_tokens s0 code "visibility" v node.range.1
    obtain ⟨l1, h1, t1⟩ := hvis (node.get "visibility")
      (st.push ⟨"keyword", some "function".toList, (node.range.1, node.range.1 + 8)⟩)
    generalize (match (node.get "visibility").text? with
      | some visibility =>
        pushFound (st.push ⟨"keyword", some "function".toList, (node.range.1, node.range.1 + 8)⟩)
          code "visibility" visibility node.range.1
      | none => st.push ⟨"keyword", some "function".toList, (node.range.1, node.range.1 + 8)⟩)
      = st1 at h1 ⊢
    obtain ⟨l2, h2, t2⟩ := hvis (node.get "stateMutability") st1
    generalize (match (node.get "stateMutability").text? with
      | some visibility => pushFound st1 code "visibility" visibility node.range.1
      | none => st1) = st2 at h2 ⊢
    have h3 : safeFindNameAndPush node st2 code "function".toList "funcName" =
        st2.push ⟨"funcName", some name,
          (pre.length + 8 + ws.length, pre.length + 8 + ws.length + name.length)⟩ := by
      rw [← hcode]
      exact key "function".toList st2 "funcName"
    simp only [h3]
    have hret : ∃ l, (match node.get "returnParameters" with
        | .arr (_ :: _) =>
          pushFound (st2.push ⟨"funcName", some name,
            (pre.length + 8 + ws.length, pre.length + 8 + ws.length + name.length)⟩) code
            "returnsKeyword" "returns".toList node.range.1
        | _ => st2.push ⟨"funcName", some name,
            (pre.length + 8 + ws.length, pre.length + 8 + ws.length + name.length)⟩).tokens =
        (st2.push ⟨"funcName", some name,
            (pre.length + 8 + ws.length, pre.length + 8 + ws.length + name.length)⟩).tokens ++ l ∧
        ∀ t ∈ l, t.type = "returnsKeyword" := by
      split
      · exact pushFound_tokens _ code "returnsKeyword" "returns".toList node.range.1
      · exact ⟨[], by simp, by simp⟩
    obtain ⟨l3, h4, t3⟩ := hret
    refine ⟨l1 ++ l2, l3, ?_, ?_, t3⟩
    · rw [h4]
      simp only [St.push] at h1 h2 ⊢
      rw [h2, h1, hstart]
      simp [List.append_assoc]
    · intro t ht
      rcases List.mem_append.mp ht with h | h
      · exact t1 t h
      · exact t2 t h

/-! ## The member-access rule -/

theorem recognizedAccessors_subset : ∀ e ∈ recognizedAccessors, e ∈ solidityGlobalVars := by
  decide

theorem isSeen_mark_self (st : St) (key : Str) : (st.mark key .yes).isSeen key = true := by
  simp [St.isSeen, St.mark, List.lookup, SeenVal.truthy]

/-- C8. A `MemberAccess` node outside every comment, not yet claimed in `seen`, whose
reconstructed dotted expression is one of the recognized accessors: the rule pushes exactly one
token, of type `keyword`, valued with the expression and spanning
`[node.range[0], node.range[1] + 1)`, and nothing else changes (no `memberAccess` token). -/
theorem memberAccess_recognized (code : Str) (cr : List (Nat × Nat)) (node : Node) (st : St)
    (e : Str) (hty : node.type = "MemberAccess")
    (hc : isRangeInComments (some node.range) (some cr) = false)
    (hseen : st.isSeen ((node.get "memberName").toStr ++ rangeKey node.range) = false)
    (he : getFullMemberExpression node = some e) (hacc : e ∈ recognizedAccessors) :
    visitor code cr node st =
      some (st.push ⟨"keyword", some e, (node.range.1, node.range.2 + 1)⟩) := by
  have hg : e ∈ solidityGlobalVars := recognizedAccessors_subset e hacc
  simp [visitor, hty, Visitor.MemberAccess, hc, hseen, he, hg]

/-- C9. A `MemberAccess` node `X.m` outside every comment, not yet claimed in `seen`, whose
reconstructed expression is not in `solidityGlobalVars`, where the inner expression starts at
the node's start and is followed at once by `.` and the member name, which ends the node
(inclusive end offsets): the rule pushes exactly one token, of type `memberAccess`, whose span
is the member name, and claims the node; visiting the node again from the resulting state
changes nothing. -/
theorem memberAccess_member_name (pre X m rest : Str) (cr : List (Nat × Nat)) (node x : Node)
    (st : St) (e : Str) (hty : node.type = "MemberAccess")
    (hc : isRangeInComments (some node.range) (some cr) = false)
    (hseen : st.isSeen ((node.get "memberName").toStr ++ rangeKey node.range) = false)
    (he : getFullMemberExpression node = some e) (hacc : e ∉ solidityGlobalVars)
    (hexp : node.get "expression" = .node x) (hmem : node.get "memberName" = .str m)
    (hstart : node.range.1 = pre.length) (hx1 : x.range.1 = node.range.1)
    (hx2 : x.range.2 + 1 = pre.length + X.length)
    (hend : node.range.2 + 1 = pre.length + X.length + 1 + m.length) :
    ∃ tok st1,
      visitor (pre ++ X ++ ['.'] ++ m ++ rest) cr node st = some st1 ∧
      st1.tokens = st.tokens ++ [tok] ∧
      tok.type = "memberAccess" ∧
      tok.range = (pre.length + X.length + 1, pre.length + X.length + 1 + m.length) ∧
      slice (pre ++ X ++ ['.'] ++ m ++ rest) tok.range.1 tok.range.2 = m ∧
      visitor (pre ++ X ++ ['.'] ++ m ++ rest) cr node st1 = some st1 := by
  have hrange : (node.range.1 + x.range.2 - x.range.1 + 2, node.range.2 + 1) =
      (pre.length + X.length + 1, pre.length + X.length + 1 + m.length) := by
    rw [hx1, hend]
    congr 1
    omega
  refine ⟨⟨"memberAccess", some m, (pre.length + X.length + 1,
      pre.length + X.length + 1 + m.length)⟩,
    (st.push ⟨"memberAccess", some m, (pre.length + X.length + 1,
      pre.length + X.length + 1 + m.length)⟩).mark
        ((node.get "memberName").toStr ++ rangeKey node.range) .yes, ?_, ?_, rfl, rfl, ?_, ?_⟩
  · simp [visitor, hty, Visitor.MemberAccess, hc, hseen, he, hacc, hexp, hrange]
    simp [hmem, PVal.value?]
  · simp [St.push, St.mark]
  · unfold slice
    have h1 : (pre ++ X ++ ['.'] ++ m ++ rest).drop (pre.length + X.length + 1) = m ++ rest := by
      have : pre ++ X ++ ['.'] ++ m ++ rest = (pre ++ X ++ ['.']) ++ (m ++ rest) := by
        simp [List.append_assoc]
      rw [this]
      have hl : (pre ++ X ++ ['.']).length = pre.length + X.length + 1 := by
        simp only [List.length_append, List.length_singleton]
      rw [← hl, List.drop_left]
    simp only []
    rw [h1]
    have h2 : pre.length + X.length + 1 + m.length - (pre.length + X.length + 1) = m.length := by
      omega
    rw [h2, List.take_left]
  · have hs := isSeen_mark_self
      (st.push ⟨"memberAccess", some m, (pre.length + X.length + 1,
        pre.length + X.length + 1 + m.length)⟩)
      ((node.get "memberName").toStr ++ rangeKey node.range)
    simp [visitor, hty, Visitor.MemberAccess, hc, hs]

/-! ## Instances of the general theorems -/

/-- The merge of C4 on `helloCode`, where a comment precedes the declaration. -/
theorem collectAllTokens_stable_merge_witness :
    collectTokens helloAst helloCode ((extractComments helloCode).map (·.range)) =
        some [tok "keyword" "contract" 0 8, tok "contractName" "C" 9 10,
          tok "type" "uint" 22 26, tok "parenthesis" "\x7b" 11 12,
          tok "parenthesis" "\x7d" 30 31] ∧
      ∃ result, collectAllTokens helloAst helloCode = some result ∧
        result.Perm (extractComments helloCode ++
          [tok "keyword" "contract" 0 8, tok "contractName" "C" 9 10,
            tok "type" "uint" 22 26, tok "parenthesis" "\x7b" 11 12,
            tok "parenthesis" "\x7d" 30 31]) ∧
        result.Pairwise (fun a b => a.range.1 ≤ b.range.1) ∧
        (∀ s, result.filter (fun t => decide (t.range.1 = s)) =
          (extractComments helloCode ++
            [tok "keyword" "contract" 0 8, tok "contractName" "C" 9 10,
              tok "type" "uint" 22 26, tok "parenthesis" "\x7b" 11 12,
              tok "parenthesis" "\x7d" 30 31]).filter (fun t => decide (t.range.1 = s))) ∧
        (∀ c ∈ extractComments helloCode,
          ∀ t ∈ [tok "keyword" "contract" 0 8, tok "contractName" "C" 9 10,
            tok "type" "uint" 22 26, tok "parenthesis" "\x7b" 11 12,
            tok "parenthesis" "\x7d" 30 31],
          c.range.1 = t.range.1 → List.Sublist [c, t] result) :=
  ⟨by decide, collectAllTokens_stable_merge helloAst helloCode _ (by decide)⟩

/-- The name resolution of C6 on `contract`, a line break, two spaces and `Foo {}`: the name
token is `[11, 14)`. -/
theorem declaration_name_token_witness :
    (Visitor.ContractDefinition
        ([] ++ "contract".toList ++ "\n  ".toList ++ "Foo".toList ++ " \x7b\x7d".toList)
        fooNode ⟨[], []⟩).tokens =
      [] ++ [⟨"keyword", some "contract".toList, (0, 0 + 8)⟩,
        ⟨"contractName", some "Foo".toList, (0 + 8 + 3, 0 + 8 + 3 + 3)⟩] :=
  (declaration_name_token [] "\n  ".toList "Foo".toList " \x7b\x7d".toList fooNode ⟨[], []⟩ []
    rfl rfl (by decide) (by decide) (by decide) (by decide)).1

/-- The rule of C8 on the expression `msg.sender`: one keyword token `[0, 10)`. -/
theorem memberAccess_recognized_witness :
    visitor "msg.sender".toList [] msgSenderNode ⟨[], []⟩ =
      some (St.push ⟨[], []⟩ ⟨"keyword", some "msg.sender".toList, (0, 9 + 1)⟩) :=
  memberAccess_recognized "msg.sender".toList [] msgSenderNode ⟨[], []⟩ "msg.sender".toList
    rfl (by decide) (by decide) (by decide) (by decide)

/-- The rule of C9 on the expression `a.b`: one `memberAccess` token on `b`. -/
theorem memberAccess_member_name_witness :
    ∃ tok st1,
      visitor ([] ++ "a".toList ++ ['.'] ++ "b".toList ++ []) [] abNode ⟨[], []⟩ = some st1 ∧
      st1.tokens = [] ++ [tok] ∧
      tok.type = "memberAccess" ∧
      tok.range = (0 + 1 + 1, 0 + 1 + 1 + 1) ∧
      slice ([] ++ "a".toList ++ ['.'] ++ "b".toList ++ []) tok.range.1 tok.range.2 =
        "b".toList ∧
      visitor ([] ++ "a".toList ++ ['.'] ++ "b".toList ++ []) [] abNode st1 = some st1 :=
  memberAccess_member_name [] "a".toList "b".toList [] [] abNode
    (.mk "Identifier" (0, 0) [("name", .str "a".toList)]) ⟨[], []⟩ "a.b".toList
    rfl (by decide) (by decide) (by decide) (by decide) rfl rfl rfl rfl rfl rfl

/-! ## Inputs on which the code departs from the specification -/

/-- C1. On `contract C { function publicFoo() public {} }` the forward search for the
visibility `public` from the start of the declaration lands in the name, so the merged list
holds the overlapping tokens `[22, 28)` and `[22, 31)`; `applyColors` copies both slices, and
the rendered text without its control codes reads `publicpublicFoo`: it is not the source. -/
theorem publicFoo_render_duplicates :
    collectAllTokens publicFooAst publicFooCode =
        some [tok "keyword" "contract" 0 8, tok "contractName" "C" 9 10,
          tok "parenthesis" "\x7b" 11 12, tok "keyword" "function" 13 21,
          tok "visibility" "public" 22 28, tok "funcName" "publicFoo" 22 31,
          tok "parenthesis" "(" 31 32, tok "parenthesis" ")" 32 33,
          tok "parenthesis" "\x7b" 41 42, tok "parenthesis" "\x7d" 42 43,
          tok "parenthesis" "\x7d" 44 45] ∧
      (collectAllTokens publicFooAst publicFooCode).map
          (fun ts => stripCodes (applyColors publicFooCode ts)) =
        some "contract C \x7b function publicpublicFoo() public \x7b\x7d \x7d".toList ∧
      (collectAllTokens publicFooAst publicFooCode).map
          (fun ts => stripCodes (applyColors publicFooCode ts)) ≠ some publicFooCode := by
  decide

/-- C3. On `contract C { function f() /* public */ public {} }` the comment scanner finds the
comment `[26, 38)`, and the `FunctionDefinition` rule, which tests only the node's range against
the comments, finds `public` by forward search inside that comment: the merged list holds a
`visibility` token `[29, 35)` whose span lies inside the comment span. -/
theorem commented_modifier_token :
    extractComments commentedCode = [tok "comment" "/* public */" 26 38] ∧
      collectAllTokens commentedAst commentedCode =
        some [tok "keyword" "contract" 0 8, tok "contractName" "C" 9 10,
          tok "parenthesis" "\x7b" 11 12, tok "keyword" "function" 13 21,
          tok "funcName" "f" 22 23, tok "parenthesis" "(" 23 24, tok "parenthesis" ")" 24 25,
          tok "comment" "/* public */" 26 38, tok "visibility" "public" 29 35,
          tok "parenthesis" "\x7b" 46 47, tok "parenthesis" "\x7d" 47 48,
          tok "parenthesis" "\x7d" 49 50] ∧
      (collectAllTokens commentedAst commentedCode).map
          (fun ts => ts.filter fun t =>
            t.type != "comment" && insideComment (extractComments commentedCode) t) =
        some [tok "visibility" "public" 29 35] := by
  decide

/-- C5. On `contract C { function viewer() public view returns (uint) {} }` the function has
a name, a visibility, a state mutability and return parameters, and the forward search for
`view` from the start of the declaration lands in the name `viewer`: the rule pushes a
`visibility` token `[22, 26)` and the `funcName` token `[22, 28)`, which overlap, and in the
sorted merged list the second starts before the first ends. -/
theorem viewer_tokens_overlap :
    (Visitor.FunctionDefinition viewerCode [] viewerFunction ⟨[], []⟩).tokens =
        [tok "keyword" "function" 13 21, tok "visibility" "public" 31 37,
          tok "visibility" "view" 22 26, tok "funcName" "viewer" 22 28,
          tok "returnsKeyword" "returns" 43 50] ∧
      overlaps (tok "visibility" "view" 22 26) (tok "funcName" "viewer" 22 28) = true ∧
      collectAllTokens viewerAst viewerCode =
        some [tok "keyword" "contract" 0 8, tok "contractName" "C" 9 10,
          tok "parenthesis" "\x7b" 11 12, tok "keyword" "function" 13 21,
          tok "visibility" "view" 22 26, tok "funcName" "viewer" 22 28,
          tok "parenthesis" "(" 28 29, tok "parenthesis" ")" 29 30,
          tok "visibility" "public" 31 37, tok "returnsKeyword" "returns" 43 50,
          tok "parenthesis" "(" 51 52, tok "parenthesis" ")" 56 57,
          tok "parenthesis" "\x7b" 58 59, tok "parenthesis" "\x7d" 59 60,
          tok "parenthesis" "\x7d" 61 62] ∧
      (collectAllTokens viewerAst viewerCode).map startsAfterPrevious = some false := by
  decide

/-- C7. On the two lines `// hello` and `uint x;`, with the type node at the inclusive range
`[9, 12]`, the `VariableDeclaration` rule pushes no token. On the same lines inside
`contract C { ... }` the type node `uint` has range `[22, 25]`, so the rule starts its
whitespace skip on the `t` of `uint`, compares `t` with the name `x` (which stands at
`[27, 28)`) and pushes nothing: the merged list holds the comment token and the type token and
no `identifier` token. -/
theorem hello_no_identifier_token :
    Visitor.VariableDeclaration "// hello\nuint x;".toList [(0, 8)]
        (variableNode (9, 15) (elementaryType (9, 12) "uint") "x" (14, 14)) ⟨[], []⟩ =
        some ⟨[], [("9,15".toList, .yes)]⟩ ∧
      slice helloCode 27 28 = "x".toList ∧
      Visitor.VariableDeclaration helloCode [(13, 21)] helloVariable ⟨[], []⟩ =
        some ⟨[], [("22,28".toList, .yes)]⟩ ∧
      collectAllTokens helloAst helloCode =
        some [tok "keyword" "contract" 0 8, tok "contractName" "C" 9 10,
          tok "parenthesis" "\x7b" 11 12, tok "comment" "// hello" 13 21,
          tok "type" "uint" 22 26, tok "parenthesis" "\x7d" 30 31] := by
  decide

/-- C10. On `contract C { mapping(address => uint) m; }` the walk of the `Mapping` node and
then of its key-type and value-type children, with one shared `seen`, pushes the `type` token
of the key type `[21, 28)` twice and that of the value type `[32, 36)` twice: once by the
`Mapping` rule, which claims only the mapping's own range, and once by the
`ElementaryTypeName` rule. -/
theorem mapping_types_pushed_twice :
    (visitNode (visitor mappingCode []) mappingNode ⟨[], []⟩).map (·.tokens) =
        some [tok "keyword" "mapping" 13 20, tok "type" "address" 21 28,
          tok "type" "uint" 32 36, tok "type" "address" 21 28, tok "type" "uint" 32 36] ∧
      (collectAllTokens mappingAst mappingCode).map
          (fun ts => ts.filter fun t => t.range = (21, 28) || t.range = (32, 36)) =
        some [tok "type" "address" 21 28, tok "type" "address" 21 28,
          tok "type" "uint" 32 36, tok "type" "uint" 32 36] ∧
      (collectAllTokens mappingAst mappingCode).map
          (fun ts => stripCodes (applyColors mappingCode ts)) =
        some "contract C \x7b mapping(addressaddress => uintuint) m; \x7d".toList := by
  decide

/-! ## The punctuation sweep -/

theorem sweepAt_eq (cr : List (Nat × Nat)) (c : Char) (i : Nat) (toks : List Token) :
    sweep.sweepAt cr c i toks = toks ++ (punctuationToken cr i c).toList := by
  unfold sweep.sweepAt punctuationToken
  by_cases hc : isRangeInComments (some (i, i + 1)) (some cr) = true
  · simp [hc]
  · by_cases h1 : c = '('
    · subst h1; simp [hc]
    by_cases h2 : c = ')'
    · subst h2; simp [hc]
    by_cases h3 : c = '\x7b'
    · subst h3; simp [hc]
    by_cases h4 : c = '\x7d'
    · subst h4; simp [hc]
    by_cases h5 : c = '['
    · subst h5; simp [hc]
    by_cases h6 : c = ']'
    · subst h6; simp [hc]
    simp [hc, h1, h2, h3, h4, h5, h6]

theorem sweep_eq_sweptOffsets (cr : List (Nat × Nat)) (seen : List (Str × SeenVal)) :
    ∀ (text : Str) (i skip : Nat) (toks : List Token),
      sweep cr seen text i skip toks =
        toks ++ (sweptOffsets seen text i skip).filterMap
          (fun p => punctuationToken cr p.1 p.2) := by
  intro text
  induction text with
  | nil => intro i skip toks; simp [sweep, sweptOffsets]
  | cons c cs ih =>
    intro i skip toks
    cases skip with
    | succ k => simp [sweep, sweptOffsets, ih]
    | zero =>
      simp only [sweep, sweptOffsets]
      cases hl : seen.lookup (natStr i) with
      | none =>
        simp only [ih, sweepAt_eq]
        cases h : punctuationToken cr i c <;> simp [h, List.filterMap_cons]
      | some v =>
        by_cases hv : v.truthy = true
        · simp [hv, ih]
        · simp only [hv, ih, sweepAt_eq]
          cases h : punctuationToken cr i c <;> simp [h, List.filterMap_cons]

theorem sweptOffsets_mem (seen : List (Str × SeenVal)) :
    ∀ (text : Str) (i skip : Nat) (p : Nat × Char), p ∈ sweptOffsets seen text i skip →
      i + skip ≤ p.1 ∧ p.1 < i + text.length ∧ text[p.1 - i]? = some p.2 := by
  intro text
  induction text with
  | nil => intro i skip p hp; simp [sweptOffsets] at hp
  | cons c cs ih =>
    intro i skip p hp
    have tail : ∀ k, p ∈ sweptOffsets seen cs (i + 1) k →
        i + 1 + k ≤ p.1 ∧ p.1 < i + (c :: cs).length ∧ (c :: cs)[p.1 - i]? = some p.2 := by
      intro k hk
      obtain ⟨h1, h2, h3⟩ := ih (i + 1) k p hk
      have h : p.1 - i = (p.1 - (i + 1)) + 1 := by omega
      refine ⟨h1, by simp only [List.length_cons]; omega, ?_⟩
      rw [h, List.getElem?_cons_succ]
      exact h3
    have head : p = (i, c) →
        i ≤ p.1 ∧ p.1 < i + (c :: cs).length ∧ (c :: cs)[p.1 - i]? = some p.2 := by
      intro h
      subst h
      simp
    cases skip with
    | succ k =>
      simp only [sweptOffsets] at hp
      obtain ⟨h1, h2, h3⟩ := tail k hp
      exact ⟨by omega, h2, h3⟩
    | zero =>
      simp only [sweptOffsets] at hp
      cases hl : seen.lookup (natStr i) with
      | none =>
        rw [hl] at hp
        rcases List.mem_cons.mp hp with h | h
        · exact head h
        · obtain ⟨h1, h2, h3⟩ := tail 0 h
          exact ⟨by omega, h2, h3⟩
      | some v =>
        rw [hl] at hp
        by_cases hv : v.truthy = true
        · simp only [hv, if_true] at hp
          obtain ⟨h1, h2, h3⟩ := tail v.toNat hp
          exact ⟨by omega, h2, h3⟩
        · simp only [hv] at hp
          rcases List.mem_cons.mp hp with h | h
          · exact head h
          · obtain ⟨h1, h2, h3⟩ := tail 0 h
            exact ⟨by omega, h2, h3⟩

theorem sweptOffsets_increasing (seen : List (Str × SeenVal)) :
    ∀ (text : Str) (i skip : Nat),
      (sweptOffsets seen text i skip).Pairwise (fun p q => p.1 < q.1) := by
  intro text
  induction text with
  | nil => intro i skip; simp [sweptOffsets]
  | cons c cs ih =>
    intro i skip
    have consCase : ((i, c) :: sweptOffsets seen cs (i + 1) 0).Pairwise
        (fun p q => p.1 < q.1) := by
      rw [List.pairwise_cons]
      refine ⟨?_, ih (i + 1) 0⟩
      intro q hq
      have := (sweptOffsets_mem seen cs (i + 1) 0 q hq).1
      show i < q.1
      omega
    cases skip with
    | succ k => simpa [sweptOffsets] using ih (i + 1) k
    | zero =>
      simp only [sweptOffsets]
      cases hl : seen.lookup (natStr i) with
      | none => exact consCase
      | some v =>
        by_cases hv : v.truthy = true
        · simpa [hv] using ih (i + 1) v.toNat
        · simpa [hv] using consCase

theorem sweptOffsets_cover (seen : List (Str × SeenVal)) :
    ∀ (text : Str) (i skip j : Nat) (c : Char), i + skip ≤ j → text[j - i]? = some c →
      (j, c) ∈ sweptOffsets seen text i skip ∨
        ∃ k v, i + skip ≤ k ∧ k ≤ j ∧ j ≤ k + v.toNat ∧
          seen.lookup (natStr k) = some v ∧ v.truthy = true := by
  intro text
  induction text with
  | nil => intro i skip j c _ h; simp at h
  | cons d ds ih =>
    intro i skip j c hj hc
    have tail : ∀ k, i + 1 + k ≤ j →
        (j, c) ∈ sweptOffsets seen ds (i + 1) k ∨
          ∃ k' v, i + 1 + k ≤ k' ∧ k' ≤ j ∧ j ≤ k' + v.toNat ∧
            seen.lookup (natStr k') = some v ∧ v.truthy = true := by
      intro k hk
      apply ih (i + 1) k j c hk
      have h : j - i = (j - (i + 1)) + 1 := by omega
      rw [h, List.getElem?_cons_succ] at hc
      exact hc
    have atHead : j = i → (j, c) = (i, d) := by
      intro h
      subst h
      simp at hc
      rw [hc]
    cases skip with
    | succ k =>
      simp only [sweptOffsets]
      rcases tail k (by omega) with h | ⟨k', v, h1, h2, h3, h4, h5⟩
      · exact Or.inl h
      · exact Or.inr ⟨k', v, by omega, h2, h3, h4, h5⟩
    | zero =>
      simp only [sweptOffsets]
      cases hl : seen.lookup (natStr i) with
      | none =>
        by_cases hji : j = i
        · exact Or.inl (by rw [atHead hji]; exact List.mem_cons_self _ _)
        · rcases tail 0 (by omega) with h | ⟨k', v, h1, h2, h3, h4, h5⟩
          · exact Or.inl (List.mem_cons_of_mem _ h)
          · exact Or.inr ⟨k', v, by omega, h2, h3, h4, h5⟩
      | some v =>
        by_cases hv : v.truthy = true
        · simp only [hv, if_true]
          by_cases hin : j ≤ i + v.toNat
          · exact Or.inr ⟨i, v, by omega, by omega, hin, hl, hv⟩
          · rcases tail v.toNat (by omega) with h | ⟨k', w, h1, h2, h3, h4, h5⟩
            · exact Or.inl h
            · exact Or.inr ⟨k', w, by omega, h2, h3, h4, h5⟩
        · simp only [hv]
          by_cases hji : j = i
          · exact Or.inl (by rw [atHead hji]; exact List.mem_cons_self _ _)
          · rcases tail 0 (by omega) with h | ⟨k', w, h1, h2, h3, h4, h5⟩
            · exact Or.inl (List.mem_cons_of_mem _ h)
            · exact Or.inr ⟨k', w, by omega, h2, h3, h4, h5⟩

/-- C11. The tokens the punctuation sweep adds are exactly, in text order, the tokens owed to
the offsets it does not pass over: at such an offset `i` outside every comment span one token
with span `[i, i + 1)` and value `code[i]`, of type `parenthesis` for a round or curly bracket
and `brackets` for a square bracket, and none for another character or inside a comment. The
offsets not passed over are offsets of the text, each taken once, and an offset of the text that
is passed over lies in the window `[k, k + seen[k]]` of a claimed start `k`. -/
theorem sweep_tokens (cr : List (Nat × Nat)) (seen : List (Str × SeenVal)) (code : Str)
    (toks : List Token) :
    sweep cr seen code 0 0 toks =
        toks ++ (sweptOffsets seen code 0 0).filterMap (fun p => punctuationToken cr p.1 p.2) ∧
      (∀ p ∈ sweptOffsets seen code 0 0, code[p.1]? = some p.2) ∧
      (sweptOffsets seen code 0 0).Pairwise (fun p q => p.1 < q.1) ∧
      (∀ i c, code[i]? = some c → (i, c) ∉ sweptOffsets seen code 0 0 →
        ∃ k v, k ≤ i ∧ i ≤ k + v.toNat ∧ seen.lookup (natStr k) = some v ∧
          v.truthy = true) := by
  refine ⟨sweep_eq_sweptOffsets cr seen code 0 0 toks, ?_, sweptOffsets_increasing seen code 0 0,
    ?_⟩
  · intro p hp
    simpa using (sweptOffsets_mem seen code 0 0 p hp).2.2
  · intro i c hc hnot
    rcases sweptOffsets_cover seen code 0 0 i c (by omega) (by simpa using hc) with
      h | ⟨k, v, _, h2, h3, h4, h5⟩
    · exact absurd h hnot
    · exact ⟨k, v, h2, h3, h4, h5⟩

/-! ## The function-call rule -/

/-- C16. A `FunctionCall` node outside every comment and not yet claimed in `seen`: when the
callee is a bare identifier the rule pushes exactly one token, spanning
`[callee.range[0], callee.range[1] + 1)`, of type `funcName` for `keccak256`, otherwise `type`
for a built-in type name, otherwise `memberAccess`; when the callee is another node it pushes
no token. In both cases it claims the call. -/
theorem functionCall_callee_token (code : Str) (cr : List (Nat × Nat)) (node e : Node)
    (st : St) (hty : node.type = "FunctionCall")
    (hc : isRangeInComments (some node.range) (some cr) = false)
    (hexp : node.get "expression" = .node e)
    (hseen : st.isSeen ((e.get "name").toStr ++ rangeKey node.range) = false) :
    (∀ name, e.type = "Identifier" → e.get "name" = .str name →
        visitor code cr node st =
          some ((st.push ⟨calleeTokenType name, some name, (e.range.1, e.range.2 + 1)⟩).mark
            (name ++ rangeKey node.range) .yes)) ∧
      (e.type ≠ "Identifier" →
        visitor code cr node st =
          some (st.mark ((e.get "name").toStr ++ rangeKey node.range) .yes)) := by
  constructor
  · intro name hid hname
    rw [hname] at hseen
    simp only [PVal.toStr] at hseen
    simp only [visitor, hty, Visitor.FunctionCall, hc, hexp, hname, PVal.toStr, hseen, hid,
      PVal.value?, calleeTokenType]
    by_cases hk : name = "keccak256".toList
    · subst hk
      simp
    · by_cases ht : name ∈ solidityTypes
      · simp [hk, ht]
      · simp [hk, ht]
  · intro hid
    simp [visitor, hty, Visitor.FunctionCall, hc, hexp, hseen, hid]

/-- The rule of C16 on the call `uint256(x)`: one `type` token `[0, 7)` on the callee. -/
theorem functionCall_callee_token_witness :
    visitor "uint256(x)".toList [] castCallNode ⟨[], []⟩ =
      some ((St.push ⟨[], []⟩ ⟨"type", some "uint256".toList, (0, 6 + 1)⟩).mark
        ("uint256".toList ++ rangeKey castCallNode.range) .yes) :=
  (functionCall_callee_token "uint256(x)".toList [] castCallNode
    (.mk "Identifier" (0, 6) [("name", .str "uint256".toList)]) ⟨[], []⟩
    rfl (by decide) rfl (by decide)).1 "uint256".toList rfl rfl

theorem findClose_cons_cons (c d : Char) (rest : Str) :
    findClose (c :: d :: rest) =
      if c = '*' ∧ d = '/' then some 0 else (findClose (d :: rest)).map (· + 1) := by
  by_cases h : c = '*' ∧ d = '/'
  · obtain ⟨h1, h2⟩ := h
    subst h1 h2
    simp [findClose]
  · rw [if_neg h]
    conv_lhs => unfold findClose
    split
    · rename_i heq
      simp at heq
      exact absurd ⟨heq.1, heq.2.1⟩ h
    · rename_i heq
      simp at heq
      obtain ⟨_, h2⟩ := heq
      subst h2
      rfl
    · rename_i heq
      simp at heq

theorem findClose_single (c : Char) : findClose [c] = none := by
  unfold findClose
  split
  · rename_i heq; simp at heq
  · rename_i heq
    simp at heq
    obtain ⟨_, h2⟩ := heq
    subst h2
    simp [findClose]
  · rename_i heq; simp at heq

theorem matchComment_cons_cons (c d : Char) (rest : Str) :
    matchComment (c :: d :: rest) =
      if c = '/' ∧ d = '/' then
        some (2 + (rest.takeWhile fun c => !isLineTerminator c).length)
      else if c = '/' ∧ d = '*' then (findClose rest).map (· + 4)
      else none := by
  unfold matchComment
  split
  · rename_i heq
    simp at heq
    obtain ⟨h1, h2, h3⟩ := heq
    subst h1 h2 h3
    simp
  · rename_i heq
    simp at heq
    obtain ⟨h1, h2, h3⟩ := heq
    subst h1 h2 h3
    simp
  · rename_i h1 h2
    have n1 : ¬ (c = '/' ∧ d = '/') := fun h => h1 rest (by rw [h.1, h.2])
    have n2 : ¬ (c = '/' ∧ d = '*') := fun h => h2 rest (by rw [h.1, h.2])
    rw [if_neg n1, if_neg n2]

theorem matchComment_short (text : Str) (h : text.length < 2) : matchComment text = none := by
  unfold matchComment
  split
  · simp only [List.length_cons] at h
    omega
  · simp only [List.length_cons] at h
    omega
  · rfl

theorem findClose_spec : ∀ (rest : Str) (idx : Nat), findClose rest = some idx →
    ∃ body tail, rest = body ++ '*' :: '/' :: tail ∧ body.length = idx ∧
      ∀ pre suf, body ≠ pre ++ '*' :: '/' :: suf := by
  intro rest
  induction rest with
  | nil => intro idx h; simp [findClose] at h
  | cons c rest ih =>
    intro idx h
    cases rest with
    | nil => rw [findClose_single] at h; exact Option.noConfusion h
    | cons d r =>
      rw [findClose_cons_cons] at h
      by_cases hcd : c = '*' ∧ d = '/'
      · rw [if_pos hcd] at h
        obtain ⟨h1, h2⟩ := hcd
        subst h1 h2
        refine ⟨[], r, rfl, ?_, ?_⟩
        · simpa using h
        · intro pre suf hp
          have := congrArg List.length hp
          simp at this
          omega
      · rw [if_neg hcd] at h
        cases hf : findClose (d :: r) with
        | none => rw [hf] at h; simp at h
        | some idx' =>
          rw [hf] at h
          simp at h
          obtain ⟨body, tail, hb, hl, hn⟩ := ih idx' hf
          refine ⟨c :: body, tail, by rw [hb]; rfl, by simp [hl, h], ?_⟩
          intro pre suf hp
          cases pre with
          | nil =>
            simp at hp
            obtain ⟨hc, hbody⟩ := hp
            rw [hbody] at hb
            simp at hb
            exact hcd ⟨hc, hb.1⟩
          | cons p pre =>
            simp at hp
            exact hn pre suf hp.2

theorem take_length_takeWhile (p : Char → Bool) : ∀ l : Str,
    l.take (l.takeWhile p).length = l.takeWhile p := by
  intro l
  induction l with
  | nil => simp
  | cons a l ih =>
    by_cases h : p a = true
    · simp [List.takeWhile_cons, h, ih]
    · simp [List.takeWhile_cons, h]

theorem length_takeWhile_le (p : Char → Bool) : ∀ l : Str,
    (l.takeWhile p).length ≤ l.length := by
  intro l
  induction l with
  | nil => simp
  | cons a l ih =>
    by_cases h : p a = true
    · simp [List.takeWhile_cons, h, ih]
    · simp [List.takeWhile_cons, h]

theorem matchComment_spec (text : Str) (len : Nat) (h : matchComment text = some len) :
    2 ≤ len ∧ len ≤ text.length ∧ IsCommentText (text.take len) := by
  match text, h with
  | [], h => rw [matchComment_short [] (by simp)] at h; exact Option.noConfusion h
  | [c], h => rw [matchComment_short [c] (by simp)] at h; exact Option.noConfusion h
  | c :: d :: rest, h =>
    rw [matchComment_cons_cons] at h
    by_cases h1 : c = '/' ∧ d = '/'
    · rw [if_pos h1] at h
      obtain ⟨hc, hd⟩ := h1
      subst hc hd
      have hlen : len = 2 + (rest.takeWhile fun c => !isLineTerminator c).length := by
        simpa using h.symm
      have hle := length_takeWhile_le (fun c => !isLineTerminator c) rest
      refine ⟨by omega, by simp only [List.length_cons]; omega, Or.inl ?_⟩
      refine ⟨rest.takeWhile fun c => !isLineTerminator c, ?_, ?_⟩
      · have h2 : len = (rest.takeWhile fun c => !isLineTerminator c).length + 1 + 1 := by omega
        rw [h2, List.take_succ_cons, List.take_succ_cons, take_length_takeWhile]
      · intro c hc
        have := List.mem_takeWhile_imp hc
        simpa using this
    · rw [if_neg h1] at h
      by_cases h2 : c = '/' ∧ d = '*'
      · rw [if_pos h2] at h
        obtain ⟨hc, hd⟩ := h2
        subst hc hd
        cases hf : findClose rest with
        | none => rw [hf] at h; simp at h
        | some idx =>
          rw [hf] at h
          simp at h
          obtain ⟨body, tail, hb, hl, hn⟩ := findClose_spec rest idx hf
          subst hb
          refine ⟨by omega, by simp only [List.length_cons, List.length_append]; omega,
            Or.inr ⟨body, ?_, hn⟩⟩
          have h3 : len = body.length + 2 + 1 + 1 := by omega
          rw [h3, List.take_succ_cons, List.take_succ_cons]
          have h4 : body ++ '*' :: '/' :: tail = (body ++ ['*', '/']) ++ tail := by simp
          have h5 : body.length + 2 = (body ++ ['*', '/']).length := by simp
          rw [h4, h5, List.take_left]
      · rw [if_neg h2] at h
        exact Option.noConfusion h

theorem slice_at_offset (pre text : Str) (len : Nat) :
    slice (pre ++ text) pre.length (pre.length + len) = text.take len := by
  unfold slice
  rw [List.drop_left, Nat.add_sub_cancel_left]

theorem extractCommentsFrom_spec : ∀ (text pre : Str) (skip : Nat),
    (∀ t ∈ extractCommentsFrom text pre.length skip,
      pre.length + skip ≤ t.range.1 ∧ t.range.1 < t.range.2 ∧
        t.range.2 ≤ (pre ++ text).length ∧ t.type = "comment" ∧
        t.value = some (slice (pre ++ text) t.range.1 t.range.2) ∧
        IsCommentText (slice (pre ++ text) t.range.1 t.range.2)) ∧
      (extractCommentsFrom text pre.length skip).Pairwise
        (fun a b => a.range.2 ≤ b.range.1) := by
  intro text
  induction text with
  | nil => intro pre skip; simp [extractCommentsFrom]
  | cons c cs ih =>
    intro pre skip
    have ih' : ∀ k,
        (∀ t ∈ extractCommentsFrom cs (pre.length + 1) k,
          pre.length + 1 + k ≤ t.range.1 ∧ t.range.1 < t.range.2 ∧
            t.range.2 ≤ (pre ++ c :: cs).length ∧ t.type = "comment" ∧
            t.value = some (slice (pre ++ c :: cs) t.range.1 t.range.2) ∧
            IsCommentText (slice (pre ++ c :: cs) t.range.1 t.range.2)) ∧
          (extractCommentsFrom cs (pre.length + 1) k).Pairwise
            (fun a b => a.range.2 ≤ b.range.1) := by
      intro k
      have h := ih (pre ++ [c]) k
      have e1 : (pre ++ [c]).length = pre.length + 1 := by simp
      have e2 : pre ++ [c] ++ cs = pre ++ c :: cs := by simp
      rw [e1, e2] at h
      exact h
    cases skip with
    | succ k =>
      simp only [extractCommentsFrom]
      refine ⟨?_, (ih' k).2⟩
      intro t ht
      obtain ⟨h1, h2⟩ := (ih' k).1 t ht
      exact ⟨by omega, h2⟩
    | zero =>
      simp only [extractCommentsFrom]
      cases hm : matchComment (c :: cs) with
      | none =>
        simp only []
        refine ⟨?_, (ih' 0).2⟩
        intro t ht
        obtain ⟨h1, h2⟩ := (ih' 0).1 t ht
        exact ⟨by omega, h2⟩
      | some len =>
        simp only []
        obtain ⟨hl2, hlt, hform⟩ := matchComment_spec (c :: cs) len hm
        constructor
        · intro t ht
          rcases List.mem_cons.mp ht with h | h
          · subst h
            simp only []
            refine ⟨by omega, by omega, ?_, trivial, ?_, ?_⟩
            · rw [List.length_append]
              omega
            · rw [slice_at_offset]
            · rw [slice_at_offset]
              exact hform
          · obtain ⟨h1, h2⟩ := (ih' (len - 1)).1 t h
            exact ⟨by omega, h2⟩
        · rw [List.pairwise_cons]
          refine ⟨?_, (ih' (len - 1)).2⟩
          intro t ht
          have h1 := ((ih' (len - 1)).1 t ht).1
          show pre.length + len ≤ t.range.1
          omega

/-- C17. The tokens of `extractComments` stand in text order and do not overlap (each starts
at or after the end of every earlier one); each has type `comment`, a non-empty range inside
the text and the value `code.slice(range[0], range[1])`, and that value begins with `//` and
holds no line break, or begins with `/*` and ends at the first `*/` after the opening
marker. -/
theorem extractComments_spec (code : Str) :
    (extractComments code).Pairwise (fun a b => a.range.2 ≤ b.range.1) ∧
      ∀ t ∈ extractComments code,
        t.type = "comment" ∧ t.range.1 < t.range.2 ∧ t.range.2 ≤ code.length ∧
          t.value = some (slice code t.range.1 t.range.2) ∧
          IsCommentText (slice code t.range.1 t.range.2) := by
  have h := extractCommentsFrom_spec code [] 0
  simp only [List.length_nil, List.nil_append] at h
  refine ⟨h.2, ?_⟩
  intro t ht
  obtain ⟨_, h2, h3, h4, h5, h6⟩ := h.1 t ht
  exact ⟨h4, h2, h3, h5, h6⟩

/-! ## The comment scanner and string literals -/

theorem matchComment_not_slash (a : Char) (rest : Str) (h : a ≠ '/') :
    matchComment (a :: rest) = none := by
  cases rest with
  | nil => exact matchComment_short [a] (by simp)
  | cons d r =>
    rw [matchComment_cons_cons, if_neg (fun hh => h hh.1), if_neg (fun hh => h hh.1)]

theorem extractCommentsFrom_clean_start : ∀ (pre text : Str) (pos : Nat),
    (∀ c ∈ pre, c ≠ '/') →
      extractCommentsFrom (pre ++ text) pos 0 = extractCommentsFrom text (pos + pre.length) 0 := by
  intro pre
  induction pre with
  | nil => intro text pos _; simp
  | cons a pre ih =>
    intro text pos h
    have ha : a ≠ '/' := h a (List.mem_cons_self _ _)
    rw [List.cons_append]
    simp only [extractCommentsFrom, matchComment_not_slash a _ ha]
    rw [ih text (pos + 1) (fun c hc => h c (List.mem_cons_of_mem _ hc))]
    congr 1
    simp only [List.length_cons]
    omega

/-- C18, as amended. The scanner reports the first comment marker of a text whatever stands
before it: when no `/` precedes a `//`, the first token is the comment from that `//` to the
end of its line, and when no `/` precedes a `/*` that has a closing `*/`, the first token is
the comment up to the first `*/`. The text before the marker is not examined, so an opening
quote of a string literal there changes nothing. -/
theorem extractComments_first_marker (pre rest : Str) (hpre : ∀ c ∈ pre, c ≠ '/') :
    (extractComments (pre ++ '/' :: '/' :: rest)).head? =
        some ⟨"comment", some ('/' :: '/' :: rest.takeWhile fun c => !isLineTerminator c),
          (pre.length, pre.length + (2 + (rest.takeWhile fun c => !isLineTerminator c).length))⟩ ∧
      ∀ idx, findClose rest = some idx →
        (extractComments (pre ++ '/' :: '*' :: rest)).head? =
          some ⟨"comment", some ('/' :: '*' :: rest.take (idx + 2)),
            (pre.length, pre.length + (idx + 4))⟩ := by
  constructor
  · have hm : matchComment ('/' :: '/' :: rest) =
        some (2 + (rest.takeWhile fun c => !isLineTerminator c).length) := by
      rw [matchComment_cons_cons, if_pos ⟨rfl, rfl⟩]
    unfold extractComments
    rw [extractCommentsFrom_clean_start pre _ 0 hpre]
    simp only [extractCommentsFrom, hm, Nat.zero_add, List.head?_cons]
    have h2 : 2 + (rest.takeWhile fun c => !isLineTerminator c).length =
        (rest.takeWhile fun c => !isLineTerminator c).length + 1 + 1 := by omega
    rw [h2, List.take_succ_cons, List.take_succ_cons, take_length_takeWhile]
  · intro idx hidx
    have hm : matchComment ('/' :: '*' :: rest) = some (idx + 4) := by
      rw [matchComment_cons_cons, if_neg (by decide), if_pos ⟨rfl, rfl⟩, hidx]
      rfl
    unfold extractComments
    rw [extractCommentsFrom_clean_start pre _ 0 hpre]
    simp only [extractCommentsFrom, hm, Nat.zero_add, List.head?_cons]
    have h2 : idx + 4 = idx + 2 + 1 + 1 := by omega
    rw [h2, List.take_succ_cons, List.take_succ_cons]

/-- The scan of C18 on `string s = "http://x";`: the part before `//` holds the opening
quote and no `/`, and the first token is the comment `[17, 22)`. -/
theorem extractComments_first_marker_witness :
    (extractComments urlCode).head? = some (tok "comment" "//x\x22;" 17 22) :=
  (extractComments_first_marker "string s = \x22http:".toList "x\x22;".toList (by decide)).1

/-- C18, as stated, fails on `string s = "http://x";`: the string literal stands at
`[11, 21)`, between the quotes at offsets 11 and 20, and `extractComments` reports the comment
`[17, 22)`, which starts between those quotes. -/
theorem url_comment_inside_literal :
    slice urlCode 11 21 = "\x22http://x\x22".toList ∧
      extractComments urlCode = [tok "comment" "//x\x22;" 17 22] ∧
      commentStartsBetween urlCode 11 20 = true := by
  decide

/-! ## More inputs on which the code departs from the specification -/

/-- C12. On `contract C { string s = "\"("; }` the literal stands at `[24, 29)` and its
value `"(` has length 2, which the `StringLiteral` rule records as `seen[24]`; the sweep passes
over the offsets 24 to 26 only, runs its body at offset 27 and pushes a `parenthesis` token
`[27, 28)` for the `(` inside the literal. -/
theorem escaped_literal_swept :
    slice escapedCode 24 29 = "\x22\\\x22(\x22".toList ∧
      (Visitor.StringLiteral [] escapedLiteral ⟨[], []⟩).seen =
        [("24".toList, .len 2), ("24,28".toList, .yes)] ∧
      sweep [] [("24".toList, .len 2), ("24,28".toList, .yes)] escapedCode 0 0 [] =
        [tok "parenthesis" "\x7b" 11 12, tok "parenthesis" "(" 27 28,
          tok "parenthesis" "\x7d" 31 32] ∧
      collectAllTokens escapedAst escapedCode =
        some [tok "keyword" "contract" 0 8, tok "contractName" "C" 9 10,
          tok "parenthesis" "\x7b" 11 12, tok "type" "string" 13 19,
          tok "string" "\x22(" 24 28, tok "parenthesis" "(" 27 28,
          tok "parenthesis" "\x7d" 31 32] := by
  decide

/-- C13. On `contract C { uint x = 1+2; }` the left operand `1` has the inclusive range
`[22, 22]` and the operator `+` follows it at `[23, 24)`; the `BinaryOperation` rule compares
the operator with `code.slice(22, 23)`, the operand itself, and pushes no token: the merged
list holds no `operator` token. -/
theorem sum_no_operator_token :
    slice sumCode 23 24 = "+".toList ∧
      slice sumCode 22 23 = "1".toList ∧
      Visitor.BinaryOperation sumCode [] sumNode ⟨[], []⟩ =
        some ⟨[], [("22,24".toList, .yes)]⟩ ∧
      collectAllTokens sumAst sumCode =
        some [tok "keyword" "contract" 0 8, tok "contractName" "C" 9 10,
          tok "parenthesis" "\x7b" 11 12, tok "type" "uint" 13 17, tok "number" "1" 22 23,
          tok "number" "2" 24 25, tok "parenthesis" "\x7d" 27 28] := by
  decide

/-- C14. On `contract C { string s = "ab"; }` the literal has the inclusive range
`[24, 27]`, and the `StringLiteral` rule pushes its token with `range: node.range`, not
widened: the half-open span `[24, 27)` covers the opening quote and `ab` and leaves the closing
quote at offset 27 out, where `[24, 28)` is the whole literal. -/
theorem quoted_token_misses_quote :
    (Visitor.StringLiteral [] quotedLiteral ⟨[], []⟩).tokens = [tok "string" "ab" 24 27] ∧
      slice quotedCode 24 27 = "\x22ab".toList ∧
      slice quotedCode 24 28 = "\x22ab\x22".toList ∧
      collectAllTokens quotedAst quotedCode =
        some [tok "keyword" "contract" 0 8, tok "contractName" "C" 9 10,
          tok "parenthesis" "\x7b" 11 12, tok "type" "string" 13 19,
          tok "string" "ab" 24 27, tok "parenthesis" "\x7d" 30 31] := by
  decide

/-- C15. On `contract C { function f(uint) public {} }` the unnamed parameter and its type
`uint` share the range `[24, 27]`; the `VariableDeclaration` rule, visited first, claims the key
`24,27`, so the `ElementaryTypeName` rule finds it claimed and pushes nothing: the walk of the
parameter yields no token, and the merged list holds no `type` token for `uint`. -/
theorem unnamed_parameter_type_skipped :
    slice unnamedCode 24 28 = "uint".toList ∧
      isRangeInComments (some (24, 27)) (some ((extractComments unnamedCode).map (·.range))) =
        false ∧
      Visitor.VariableDeclaration unnamedCode [] unnamedParameter ⟨[], []⟩ =
        some ⟨[], [("24,27".toList, .yes)]⟩ ∧
      Visitor.ElementaryTypeName [] (elementaryType (24, 27) "uint")
          ⟨[], [("24,27".toList, .yes)]⟩ = ⟨[], [("24,27".toList, .yes)]⟩ ∧
      visitNode (visitor unnamedCode []) unnamedParameter ⟨[], []⟩ =
        some ⟨[], [("24,27".toList, .yes)]⟩ ∧
      collectAllTokens unnamedAst unnamedCode =
        some [tok "keyword" "contract" 0 8, tok "contractName" "C" 9 10,
          tok "parenthesis" "\x7b" 11 12, tok "keyword" "function" 13 21,
          tok "funcName" "f" 22 23, tok "parenthesis" "(" 23 24, tok "parenthesis" ")" 28 29,
          tok "visibility" "public" 30 36, tok "parenthesis" "\x7b" 37 38,
          tok "parenthesis" "\x7d" 38 39, tok "parenthesis" "\x7d" 40 41] := by
  decide

/-- C19. The type `constructor` has no entry in `colorsMap`, yet `colorsMap['constructor']`
reads the function inherited from `Object.prototype`, which is truthy: `applyColors` puts the
text of that function, not the reset code, before the slice. -/
theorem inherited_color_text :
    colorsMap.lookup "constructor" = none ∧
      applyColors "abc".toList [⟨"constructor", some "abc".toList, (0, 3)⟩] =
        "function Object() \x7b [native code] \x7dabc".toList ++ colorsReset ∧
      applyColors "abc".toList [⟨"constructor", some "abc".toList, (0, 3)⟩] ≠
        colorsReset ++ "abc".toList ++ colorsReset := by
  decide

/-! ## The parse fallback of `highlightSolidityCode` -/

theorem renderWith_undefined (code : Str) :
    ∃ out, renderWith .undefined code = .ok out := by
  simp [renderWith, collectAllTokens, collectTokens, visitVal]

theorem renderWith_no_parse_error (ast : PVal) (code : Str) (m : Str) :
    renderWith ast code ≠ .error (.parseError m) := by
  unfold renderWith
  cases collectAllTokens ast code <;> simp

/-- C20, as amended. `highlightSolidityCode` raises a parser error exactly when
`parseSolidity` fails on the original text with a message that holds
`Cannot read properties of null (reading 'getText')` and then fails on the wrapped text, and
the error raised is that of the second parse. When the first failure carries another message
there is no second parse and no error: the original text is rendered with an undefined
tree. -/
theorem highlight_parser_error_iff (p : Parser) (code : Str) :
    (∀ m, highlightSolidityCode p code = .error (.parseError m) ↔
        ∃ first, parseSolidity p code = .error first ∧ includes first nullGetText = true ∧
          parseSolidity p (wrapDummy code) = .error m) ∧
      (∀ first, parseSolidity p code = .error first → includes first nullGetText = false →
        highlightSolidityCode p code = renderWith .undefined code ∧
          ∃ out, highlightSolidityCode p code = .ok out) := by
  constructor
  · intro m
    unfold highlightSolidityCode
    cases h1 : parseSolidity p code with
    | ok ast =>
      simp only []
      constructor
      · intro h
        exact absurd h (renderWith_no_parse_error ast code m)
      · rintro ⟨first, hf, _⟩
        exact Except.noConfusion hf
    | error first =>
      simp only []
      by_cases hi : includes first nullGetText = true
      · rw [if_pos hi]
        cases h2 : parseSolidity p (wrapDummy code) with
        | ok ast =>
          simp only []
          constructor
          · intro h
            cases hr : renderWith ast (wrapDummy code) with
            | ok out => rw [hr] at h; simp [Except.map] at h
            | error e =>
              rw [hr] at h
              simp only [Except.map] at h
              exact absurd (hr.trans h) (renderWith_no_parse_error ast (wrapDummy code) m)
          · rintro ⟨_, _, _, hf⟩
            exact Except.noConfusion hf
        | error second =>
          simp only []
          constructor
          · intro h
            have hm : second = m := by
              injection h with h'
              injection h'
            exact ⟨first, rfl, hi, by rw [hm]⟩
          · rintro ⟨_, _, _, hf⟩
            injection hf with hf'
            rw [hf']
      · rw [if_neg hi]
        constructor
        · intro h
          exact absurd h (renderWith_no_parse_error .undefined code m)
        · rintro ⟨f, hf, hi2, _⟩
          injection hf with hf'
          rw [← hf'] at hi2
          exact absurd hi2 hi
  · intro first h1 hi
    have hh : highlightSolidityCode p code = renderWith .undefined code := by
      unfold highlightSolidityCode
      rw [h1]
      simp [hi]
    refine ⟨hh, ?_⟩
    rw [hh]
    exact renderWith_undefined code

/-- The fallback of C20 on a parser that always fails with the message `boom`: the text `x`
is rendered and no error is raised. -/
theorem highlight_parser_error_iff_witness :
    highlightSolidityCode (failingParser "x".toList "boom".toList "boom".toList) "x".toList =
        renderWith .undefined "x".toList ∧
      ∃ out, highlightSolidityCode (failingParser "x".toList "boom".toList "boom".toList)
        "x".toList = .ok out :=
  (highlight_parser_error_iff (failingParser "x".toList "boom".toList "boom".toList)
    "x".toList).2 "boom".toList rfl (by decide)

/-- C20, as stated, fails twice. A parser that fails on the original and on the wrapped text
with the message `boom` gets no second parse and no error: `x` is rendered. A parser that fails
on the original text with the message of the fallback and on the wrapped text with the message
`second` makes the function raise `second`, not the original message. -/
theorem highlight_fallback_counterexample :
    parseSolidity (failingParser "x".toList "boom".toList "boom".toList) "x".toList =
        .error "boom".toList ∧
      parseSolidity (failingParser "x".toList "boom".toList "boom".toList)
          (wrapDummy "x".toList) = .error "boom".toList ∧
      highlightSolidityCode (failingParser "x".toList "boom".toList "boom".toList)
          "x".toList = .ok "x".toList ∧
      parseSolidity (failingParser "x".toList nullGetText "second".toList) "x".toList =
        .error nullGetText ∧
      highlightSolidityCode (failingParser "x".toList nullGetText "second".toList)
          "x".toList = .error (.parseError "second".toList) ∧
      nullGetText ≠ "second".toList :=
  ⟨rfl, rfl, by decide, rfl, by decide, by decide⟩

/-! ## The range test `isRangeInComments` -/

theorem isRangeInComments_iff (r : Nat × Nat) (crs : List (Nat × Nat)) :
    isRangeInComments (some r) (some crs) = true ↔ ∃ cr ∈ crs, cr.1 ≤ r.1 ∧ r.2 ≤ cr.2 := by
  simp [isRangeInComments, List.any_eq_true]

/-- With both arguments present, `isRangeInComments` returns true exactly when the range lies
fully inside one of the comment ranges, and false otherwise; a range inside a comment range
overlaps it (when its start does not exceed its end). -/
theorem isRangeInComments_inside (r : Nat × Nat) (crs : List (Nat × Nat)) :
    (isRangeInComments (some r) (some crs) = true ↔
        ∃ cr ∈ crs, cr.1 ≤ r.1 ∧ r.2 ≤ cr.2) ∧
      (isRangeInComments (some r) (some crs) = false ↔
        ∀ cr ∈ crs, r.1 < cr.1 ∨ cr.2 < r.2) ∧
      (r.1 ≤ r.2 → isRangeInComments (some r) (some crs) = true →
        ∃ cr ∈ crs, rangesOverlap r cr = true) := by
  refine ⟨isRangeInComments_iff r crs, ?_, ?_⟩
  · rw [← Bool.not_eq_true, isRangeInComments_iff]
    constructor
    · intro h cr hcr
      by_contra hn
      exact h ⟨cr, hcr, by omega, by omega⟩
    · rintro h ⟨cr, hcr, h1, h2⟩
      rcases h cr hcr with h3 | h3 <;> omega
  · intro hle h
    obtain ⟨cr, hcr, h1, h2⟩ := (isRangeInComments_iff r crs).mp h
    refine ⟨cr, hcr, ?_⟩
    simp only [rangesOverlap, Bool.and_eq_true, decide_eq_true_eq]
    omega

/-- C22. The range `[0, 10]` overlaps the comment range `[5, 8]`, so the test that the claim and
the doc comment of the function describe ("True if overlapping, else false") gives true, and
`isRangeInComments` returns false on them: its comparison `range[0] >= c[0] && range[1] <= c[1]`
asks that the range lie fully inside the comment range. -/
theorem overlap_not_inside :
    rangesOverlap (0, 10) (5, 8) = true ∧
      overlapsAnyComment (0, 10) [(5, 8)] = true ∧
      isRangeInComments (some (0, 10)) (some [(5, 8)]) = false := by
  decide

/-- C23. For a present range `[a, b]` and a present list of comment ranges,
`isRangeInComments` returns true if and only if some comment range `[c, d]` has `c ≤ a` and
`b ≤ d`; when the range or the list is missing it returns true. -/
theorem isRangeInComments_spec :
    (∀ (a b : Nat) (crs : List (Nat × Nat)),
        isRangeInComments (some (a, b)) (some crs) = true ↔
          ∃ c d, (c, d) ∈ crs ∧ c ≤ a ∧ b ≤ d) ∧
      (∀ crs, isRangeInComments none crs = true) ∧
      (∀ range, isRangeInComments range none = true) := by
  refine ⟨?_, ?_, ?_⟩
  · intro a b crs
    rw [isRangeInComments_iff]
    constructor
    · rintro ⟨cr, hcr, h1, h2⟩
      exact ⟨cr.1, cr.2, hcr, h1, h2⟩
    · rintro ⟨c, d, hcr, h1, h2⟩
      exact ⟨(c, d), hcr, h1, h2⟩
  · intro crs
    cases crs <;> rfl
  · intro range
    cases range <;> rfl

/-- The comment range `[5, 8]` holds the range `[6, 7]`, and the two overlap. -/
theorem isRangeInComments_inside_witness :
    isRangeInComments (some (6, 7)) (some [(5, 8)]) = true ∧
      ∃ cr ∈ [((5 : Nat), (8 : Nat))], rangesOverlap (6, 7) cr = true :=
  ⟨by decide, (isRangeInComments_inside (6, 7) [(5, 8)]).2.2 (by decide) (by decide)⟩

/-! ## The renderer reads type and range only -/

theorem applyStep_shape (code : Str) (acc : Str × Nat) (t u : Token) (h : t.shape = u.shape) :
    applyStep code acc t = applyStep code acc u := by
  have h1 : t.type = u.type := congrArg Prod.fst h
  have h2 : t.range = u.range := congrArg Prod.snd h
  unfold applyStep
  rw [h1, h2]

theorem foldl_applyStep_shape (code : Str) :
    ∀ (l₁ l₂ : List Token) (acc : Str × Nat), l₁.map Token.shape = l₂.map Token.shape →
      l₁.foldl (applyStep code) acc = l₂.foldl (applyStep code) acc := by
  intro l₁
  induction l₁ with
  | nil =>
    intro l₂ acc h
    cases l₂ with
    | nil => rfl
    | cons b l₂ => simp at h
  | cons a l₁ ih =>
    intro l₂ acc h
    cases l₂ with
    | nil => simp at h
    | cons b l₂ =>
      simp only [List.map_cons, List.cons.injEq] at h
      simp only [List.foldl_cons]
      rw [applyStep_shape code acc a b h.1]
      exact ih l₂ _ h.2

theorem sortTokens_shape (l : List Token) :
    (sortTokens l).map Token.shape =
      (l.map Token.shape).insertionSort (fun p q => p.2.1 ≤ q.2.1) := by
  unfold sortTokens
  apply List.map_insertionSort
  intro a _ b _
  rfl

/-- C28. Two token lists that agree position by position on type and range, whatever their
values, give the same output of `applyColors` on every text. -/
theorem applyColors_ignores_value (code : Str) (toks toks' : List Token)
    (h : toks.map Token.shape = toks'.map Token.shape) :
    applyColors code toks = applyColors code toks' := by
  have hs : (sortTokens toks).map Token.shape = (sortTokens toks').map Token.shape := by
    rw [sortTokens_shape, sortTokens_shape, h]
  unfold applyColors
  rw [foldl_applyStep_shape code _ _ ([], 0) hs]

/-- The number token of `0x10` rendered with the value `16` and with the value `0x10`, as an
instance of C28. -/
theorem applyColors_ignores_value_witness :
    applyColors "x = 0x10;".toList [⟨"number", some "16".toList, (4, 8)⟩] =
      applyColors "x = 0x10;".toList [⟨"number", some "0x10".toList, (4, 8)⟩] :=
  applyColors_ignores_value "x = 0x10;".toList [⟨"number", some "16".toList, (4, 8)⟩]
    [⟨"number", some "0x10".toList, (4, 8)⟩] (by decide)

/-! ## The wrapper lines of the fallback -/

theorem splitLines_ne_nil : ∀ s : Str, splitLines s ≠ [] := by
  intro s
  induction s with
  | nil => simp [splitLines]
  | cons c cs ih =>
    unfold splitLines
    by_cases h : c = '\n'
    · simp [h]
    · simp only [h, if_false]
      cases hs : splitLines cs with
      | nil => simp
      | cons line lines => simp

theorem splitLines_cons_other (c : Char) (cs : Str) (line : Str) (lines : List Str)
    (h : c ≠ '\n') (hs : splitLines cs = line :: lines) :
    splitLines (c :: cs) = (c :: line) :: lines := by
  conv_lhs => unfold splitLines
  simp only [h, if_false, hs]

theorem splitLines_append : ∀ (x y : Str),
    splitLines (x ++ '\n' :: y) = splitLines x ++ splitLines y := by
  intro x y
  induction x with
  | nil =>
    have e1 : splitLines ('\n' :: y) = [] :: splitLines y := by
      conv_lhs => unfold splitLines
      simp
    rw [List.nil_append, e1]
    rfl
  | cons c cs ih =>
    by_cases h : c = '\n'
    · subst h
      have e1 : splitLines ('\n' :: (cs ++ '\n' :: y)) = [] :: splitLines (cs ++ '\n' :: y) := by
        conv_lhs => unfold splitLines
        simp
      have e2 : splitLines ('\n' :: cs) = [] :: splitLines cs := by
        conv_lhs => unfold splitLines
        simp
      rw [List.cons_append, e1, ih, e2]
      rfl
    · obtain ⟨line, lines, hs⟩ := List.exists_cons_of_ne_nil (splitLines_ne_nil cs)
      rw [hs, List.cons_append] at ih
      rw [List.cons_append, splitLines_cons_other c _ line _ h ih,
        splitLines_cons_other c cs line lines h hs]
      rfl

theorem splitLines_single : ∀ s : Str, '\n' ∉ s → splitLines s = [s] := by
  intro s
  induction s with
  | nil => intro _; rfl
  | cons c cs ih =>
    intro h
    have hc : c ≠ '\n' := fun e => h (by rw [e]; exact List.mem_cons_self _ _)
    have hcs : '\n' ∉ cs := fun e => h (List.mem_cons_of_mem _ e)
    exact splitLines_cons_other c cs cs [] hc (ih hcs)

theorem joinLines_cons_char (c : Char) (line : Str) (lines : List Str) :
    joinLines ((c :: line) :: lines) = c :: joinLines (line :: lines) := by
  cases lines <;> simp [joinLines]

theorem joinLines_splitLines : ∀ s : Str, joinLines (splitLines s) = s := by
  intro s
  induction s with
  | nil => rfl
  | cons c cs ih =>
    obtain ⟨line, lines, hs⟩ := List.exists_cons_of_ne_nil (splitLines_ne_nil cs)
    by_cases h : c = '\n'
    · subst h
      have e2 : splitLines ('\n' :: cs) = [] :: splitLines cs := by
        conv_lhs => unfold splitLines
        simp
      rw [e2, hs]
      rw [hs] at ih
      simp [joinLines, ih]
    · rw [splitLines_cons_other c cs line lines h hs, joinLines_cons_char, ← hs, ih]

theorem stripWrapperLines_framed (l0 body l1 : Str) (h0 : '\n' ∉ l0) (h1 : '\n' ∉ l1) :
    stripWrapperLines (l0 ++ '\n' :: (body ++ '\n' :: l1)) = body := by
  unfold stripWrapperLines
  rw [splitLines_append l0, splitLines_single l0 h0, splitLines_append body,
    splitLines_single l1 h1]
  simp only [List.singleton_append, List.drop_succ_cons, List.drop_zero]
  rw [List.dropLast_concat, joinLines_splitLines]

/-- C21. When `highlightSolidityCode` falls back to the wrapped text and the rendering of the
wrapped text is `L0`, a line break, `B`, a line break and `L1`, with no line break in `L0` and
in `L1`, the text it returns is `B`: the first and the last line of the rendering are
removed. -/
theorem fallback_strips_wrapper (p : Parser) (code first : Str) (ast : PVal)
    (toks : List Token) (l0 body l1 : Str)
    (h1 : parseSolidity p code = .error first) (h2 : includes first nullGetText = true)
    (h3 : parseSolidity p (wrapDummy code) = .ok ast)
    (h4 : collectAllTokens ast (wrapDummy code) = some toks)
    (h5 : applyColors (wrapDummy code) toks = l0 ++ '\n' :: (body ++ '\n' :: l1))
    (h6 : '\n' ∉ l0) (h7 : '\n' ∉ l1) :
    highlightSolidityCode p code = .ok body := by
  unfold highlightSolidityCode
  rw [h1]
  simp only [h2, if_true]
  rw [h3]
  simp only [renderWith, h4, Except.map, h5, stripWrapperLines_framed l0 body l1 h6 h7]

/-- The fallback of C21 on `uint x;`: of the three rendered lines the middle one is
returned. -/
theorem fallback_strips_wrapper_witness :
    highlightSolidityCode dummyParser bareCode =
      .ok (fgCyan ++ "uint".toList ++ colorsReset ++ " x;".toList) :=
  fallback_strips_wrapper dummyParser bareCode nullGetText dummyAst
    [tok "keyword" "contract" 0 8, tok "contractName" "Dummy" 9 14,
      tok "parenthesis" "\x7b" 15 16, tok "type" "uint" 17 21, tok "parenthesis" "\x7d" 25 26]
    (fgBlue ++ "contract".toList ++ colorsReset ++ " ".toList ++ fgCyan ++ "Dummy".toList ++
      colorsReset ++ " ".toList ++ fgMagenta ++ "\x7b".toList ++ colorsReset)
    (fgCyan ++ "uint".toList ++ colorsReset ++ " x;".toList)
    (fgMagenta ++ "\x7d".toList ++ colorsReset)
    rfl (by decide) rfl (by decide) (by decide) (by decide) (by decide)

/-! ## Keyword tokens and accessor tokens on other declarations and chains -/

/-- C25. On `interface I {}` the `ContractDefinition` rule pushes the keyword token valued
`contract` over `[0, 8)`, where the text reads `interfac`; on `contract C { constructor() {} }`
the `FunctionDefinition` rule pushes the keyword token valued `function` over `[13, 21)`, where
the text reads `construc`. -/
theorem keyword_token_on_other_text :
    (Visitor.ContractDefinition interfaceCode interfaceNode ⟨[], []⟩).tokens =
        [tok "keyword" "contract" 0 8, tok "contractName" "I" 10 11] ∧
      slice interfaceCode 0 8 = "interfac".toList ∧
      (Visitor.FunctionDefinition constructorCode [] constructorNode ⟨[], []⟩).tokens =
        [tok "keyword" "function" 13 21] ∧
      slice constructorCode 13 21 = "construc".toList ∧
      collectAllTokens interfaceAst interfaceCode =
        some [tok "keyword" "contract" 0 8, tok "contractName" "I" 10 11,
          tok "parenthesis" "\x7b" 12 13, tok "parenthesis" "\x7d" 13 14] ∧
      collectAllTokens constructorAst constructorCode =
        some [tok "keyword" "contract" 0 8, tok "contractName" "C" 9 10,
          tok "parenthesis" "\x7b" 11 12, tok "keyword" "function" 13 21,
          tok "parenthesis" "(" 24 25, tok "parenthesis" ")" 25 26,
          tok "parenthesis" "\x7b" 27 28, tok "parenthesis" "\x7d" 28 29,
          tok "parenthesis" "\x7d" 30 31] := by
  decide

/-- C27. On `contract C { function g() public { f().now; } }` the chain of the `MemberAccess`
node `f().now` is rooted at the call `f()`, which is no identifier, so
`getFullMemberExpression` gives the bare member name `now`; that name is in
`solidityGlobalVars`, and the rule pushes a `keyword` token valued `now` over the whole node
`[35, 42)`. -/
theorem call_rooted_keyword_token :
    callNode.type = "FunctionCall" ∧
      callMemberNode.get "expression" = .node callNode ∧
      getFullMemberExpression callMemberNode = some "now".toList ∧
      visitor callMemberCode [] callMemberNode ⟨[], []⟩ =
        some ⟨[tok "keyword" "now" 35 42], []⟩ ∧
      slice callMemberCode 35 42 = "f().now".toList ∧
      collectAllTokens callMemberAst callMemberCode =
        some [tok "keyword" "contract" 0 8, tok "contractName" "C" 9 10,
          tok "parenthesis" "\x7b" 11 12, tok "keyword" "function" 13 21,
          tok "funcName" "g" 22 23, tok "parenthesis" "(" 23 24, tok "parenthesis" ")" 24 25,
          tok "visibility" "public" 26 32, tok "parenthesis" "\x7b" 33 34,
          tok "keyword" "now" 35 42, tok "memberAccess" "f" 35 36,
          tok "parenthesis" "(" 36 37, tok "parenthesis" ")" 37 38,
          tok "parenthesis" "\x7d" 44 45, tok "parenthesis" "\x7d" 46 47] :=
  ⟨rfl, rfl, by decide, by decide, by decide, by decide⟩

/-! ## The verify-or-search rules push the text they found -/

theorem startsWith_take : ∀ (s text : Str), startsWith s text = true → text.take s.length = s := by
  intro s
  induction s with
  | nil => intro text _; simp
  | cons a s ih =>
    intro text h
    cases text with
    | nil => simp [startsWith, List.isPrefixOf] at h
    | cons b text =>
      simp only [startsWith, List.isPrefixOf, Bool.and_eq_true, beq_iff_eq] at h
      have := ih text h.2
      simp [h.1, this]

theorem indexOfAux_found (s : Str) : ∀ (text : Str) (k p : Nat),
    indexOfAux s text k = some p → ∃ j, p = k + j ∧ startsWith s (text.drop j) = true := by
  intro text
  induction text with
  | nil =>
    intro k p h
    unfold indexOfAux at h
    by_cases hs : s = []
    · simp only [hs, if_true, Option.some.injEq] at h
      exact ⟨0, by omega, by simp [hs, startsWith]⟩
    · simp [hs] at h
  | cons c cs ih =>
    intro k p h
    unfold indexOfAux at h
    by_cases hs : startsWith s (c :: cs) = true
    · simp only [hs, if_true, Option.some.injEq] at h
      exact ⟨0, by omega, by simpa using hs⟩
    · simp only [hs] at h
      obtain ⟨j, hj, hst⟩ := ih (k + 1) p h
      exact ⟨j + 1, by omega, by simpa using hst⟩

theorem indexOf_found (code w : Str) (k p : Nat) (h : indexOf code w k = some p) :
    slice code p (p + w.length) = w := by
  unfold indexOf at h
  obtain ⟨j, hj, hst⟩ := indexOfAux_found w (code.drop k) (min k code.length) p h
  unfold slice
  rw [Nat.add_sub_cancel_left]
  have hd : code.drop p = (code.drop k).drop j := by
    rw [List.drop_drop]
    by_cases hk : k ≤ code.length
    · rw [Nat.min_eq_left hk] at hj
      rw [hj]
    · have h1 : code.drop p = [] := List.drop_of_length_le (by omega)
      have h2 : code.drop (k + j) = [] := List.drop_of_length_le (by omega)
      rw [h1, h2]
  rw [hd]
  exact startsWith_take w _ hst

theorem pushes_refl (P : Token → Prop) (st : St) : Pushes P st st :=
  ⟨[], by simp, by simp⟩

theorem pushes_trans {P : Token → Prop} {a b c : St} (h1 : Pushes P a b)
    (h2 : Pushes P b c) : Pushes P a c := by
  obtain ⟨l1, e1, f1⟩ := h1
  obtain ⟨l2, e2, f2⟩ := h2
  refine ⟨l1 ++ l2, by rw [e2, e1, List.append_assoc], ?_⟩
  intro t ht
  rcases List.mem_append.mp ht with h | h
  · exact f1 t h
  · exact f2 t h

theorem pushes_mono {P Q : Token → Prop} {a b : St} (h : ∀ t, P t → Q t)
    (h1 : Pushes P a b) : Pushes Q a b := by
  obtain ⟨l, e, f⟩ := h1
  exact ⟨l, e, fun t ht => h t (f t ht)⟩

theorem pushes_push {P : Token → Prop} (st : St) (t : Token) (h : P t) :
    Pushes P st (st.push t) :=
  ⟨[t], rfl, by intro u hu; rw [List.mem_singleton.mp hu]; exact h⟩

theorem pushes_mark (P : Token → Prop) (st : St) (key : Str) (v : SeenVal) :
    Pushes P st (st.mark key v) :=
  ⟨[], by simp [St.mark], by simp⟩

theorem pushes_all {P : Token → Prop} {a b : St} (h : Pushes P a b)
    (ha : ∀ t ∈ a.tokens, P t) : ∀ t ∈ b.tokens, P t := by
  obtain ⟨l, e, f⟩ := h
  intro t ht
  rw [e] at ht
  rcases List.mem_append.mp ht with h | h
  · exact ha t h
  · exact f t h

theorem pushes_pushFound {P : Token → Prop} (st : St) (code : Str) (ty : String) (w : Str)
    (k : Nat)
    (h : ∀ a, slice code a (a + w.length) = w → P ⟨ty, some w, (a, a + w.length)⟩) :
    Pushes P st (pushFound st code ty w k) := by
  unfold pushFound
  cases hf : indexOf code w k with
  | none => exact pushes_refl P st
  | some found => exact pushes_push st _ (h found (indexOf_found code w k found hf))

theorem pushes_safeFind {P : Token → Prop} (node : Node) (st : St) (code kw : Str)
    (ty : String)
    (h : ∀ name a, (node.get "name").text? = some name → slice code a (a + name.length) = name →
      P ⟨ty, some name, (a, a + name.length)⟩) :
    Pushes P st (safeFindNameAndPush node st code kw ty) := by
  unfold safeFindNameAndPush
  cases hn : (node.get "name").text? with
  | none => exact pushes_refl P st
  | some name =>
    simp only []
    by_cases hs : slice code (node.range.1 + kw.length + 1)
        (node.range.1 + kw.length + 1 + name.length) = name
    · rw [if_pos hs]
      exact pushes_push st _ (h name _ hn hs)
    · rw [if_neg hs]
      cases hf : indexOf code name (node.range.1 + kw.length) with
      | none => exact pushes_refl P st
      | some found => exact pushes_push st _ (h name found hn (indexOf_found code name _ found hf))

theorem sound_found (code : Str) (ty : String) (w : Str) (a : Nat) (hty : ty ∈ emittedTypes)
    (hs : slice code a (a + w.length) = w) :
    Token.sound code ⟨ty, some w, (a, a + w.length)⟩ :=
  ⟨hty, fun _ => by show some w = some (slice code a (a + w.length)); rw [hs]⟩

theorem sound_keyword (code : Str) (v : Option Str) (r : Nat × Nat) :
    Token.sound code ⟨"keyword", v, r⟩ :=
  ⟨List.Mem.head _, fun h => absurd rfl h⟩

theorem contractDefinition_eq (code : Str) (node : Node) (st : St) :
    Visitor.ContractDefinition code node st =
      safeFindNameAndPush node
        (st.push ⟨"keyword", some "contract".toList, (node.range.1, node.range.1 + 8)⟩) code
        "contract".toList "contractName" := rfl

theorem contractDefinition_sound (code : Str) (node : Node) (st : St) :
    Pushes (Token.sound code) st (Visitor.ContractDefinition code node st) := by
  rw [contractDefinition_eq]
  exact pushes_trans (pushes_push st _ (sound_keyword code _ _))
    (pushes_safeFind node _ code _ _ fun name a _ hs =>
      sound_found code _ name a (by decide) hs)

theorem eventDefinition_sound (code : Str) (node : Node) (st : St) :
    Pushes (Token.sound code) st (Visitor.EventDefinition code node st) := by
  unfold Visitor.EventDefinition
  exact pushes_trans (pushes_push st _ (sound_keyword code _ _))
    (pushes_safeFind node _ code _ _ fun name a _ hs =>
      sound_found code _ name a (by decide) hs)

theorem structDefinition_sound (code : Str) (cr : List (Nat × Nat)) (node : Node) (st : St) :
    Pushes (Token.sound code) st (Visitor.StructDefinition code cr node st) := by
  unfold Visitor.StructDefinition
  split
  · exact pushes_refl _ st
  · exact pushes_trans (pushes_push st _ (sound_keyword code _ _))
      (pushes_safeFind node _ code _ _ fun name a _ hs =>
        sound_found code _ name a (by decide) hs)

theorem pushes_modifier {P : Token → Prop} (st : St) (code : Str) (ty : String)
    (q : Option Str) (k : Nat)
    (h : ∀ w a, slice code a (a + w.length) = w → P ⟨ty, some w, (a, a + w.length)⟩) :
    Pushes P st
      (match q with
        | some w => pushFound st code ty w k
        | none => st) := by
  cases q with
  | none => exact pushes_refl P st
  | some w => exact pushes_pushFound st code ty w k (h w)

theorem pushes_returns {P : Token → Prop} (st0 st : St) (code : Str) (v : PVal) (k : Nat)
    (h0 : Pushes P st0 st)
    (h : ∀ a, slice code a (a + "returns".toList.length) = "returns".toList →
      P ⟨"returnsKeyword", some "returns".toList, (a, a + "returns".toList.length)⟩) :
    Pushes P st0
      (match v with
        | .arr (_ :: _) => pushFound st code "returnsKeyword" "returns".toList k
        | _ => st) := by
  split
  · exact pushes_trans h0 (pushes_pushFound st code _ _ k h)
  · exact h0

theorem functionDefinition_sound (code : Str) (cr : List (Nat × Nat)) (node : Node) (st : St) :
    Pushes (Token.sound code) st (Visitor.FunctionDefinition code cr node st) := by
  unfold Visitor.FunctionDefinition
  split
  · exact pushes_refl _ st
  · simp only []
    refine pushes_returns st _ code _ _ ?_ fun a hs => sound_found code _ _ a (by decide) hs
    exact pushes_trans (pushes_trans (pushes_trans
      (pushes_push st _ (sound_keyword code _ _))
      (pushes_modifier _ code "visibility" _ _ fun w a hs =>
        sound_found code _ w a (by decide) hs))
      (pushes_modifier _ code "visibility" _ _ fun w a hs =>
        sound_found code _ w a (by decide) hs))
      (pushes_safeFind node _ code _ "funcName" fun name a _ hs =>
        sound_found code _ name a (by decide) hs)

theorem variableDeclaration_pushes {P : Token → Prop} (code : Str) (cr : List (Nat × Nat))
    (node : Node) (st st' : St)
    (hid : ∀ name T, (node.get "name").text? = some name → node.get "typeName" = .node T →
      slice code
          (T.range.2 + ((code.drop T.range.2).takeWhile fun c => c = ' ' || c = '\t').length)
          (T.range.2 + ((code.drop T.range.2).takeWhile fun c => c = ' ' || c = '\t').length +
            name.length) = name →
      P ⟨"identifier", some name,
        (T.range.2 + ((code.drop T.range.2).takeWhile fun c => c = ' ' || c = '\t').length,
          T.range.2 + ((code.drop T.range.2).takeWhile fun c => c = ' ' || c = '\t').length +
            name.length)⟩)
    (hvis : ∀ w a, slice code a (a + w.length) = w → P ⟨"visibility", some w, (a, a + w.length)⟩)
    (hloc : ∀ w a, slice code a (a + w.length) = w →
      P ⟨"storageLocation", some w, (a, a + w.length)⟩)
    (h : Visitor.VariableDeclaration code cr node st = some st') : Pushes P st st' := by
  unfold Visitor.VariableDeclaration at h
  by_cases hc : isRangeInComments (some node.range) (some cr) = true
  · rw [if_pos hc] at h
    cases h
    exact pushes_refl P st
  · rw [if_neg hc] at h
    by_cases hseen : st.isSeen (rangeKey node.range) = true
    · rw [if_pos hseen] at h
      cases h
      exact pushes_refl P st
    · rw [if_neg hseen] at h
      simp only [] at h
      obtain ⟨s1, h1, h2⟩ := Option.bind_eq_some.mp h
      obtain ⟨s2, h3, h4⟩ := Option.map_eq_some'.mp h2
      have p1 : Pushes P (st.mark (rangeKey node.range) .yes) s1 := by
        cases hn : (node.get "name").text? with
        | none =>
          rw [hn] at h1
          cases h1
          exact pushes_refl P _
        | some name =>
          rw [hn] at h1
          cases ht : node.get "typeName" with
          | node T =>
            rw [ht] at h1
            simp only [] at h1
            split at h1
            · next hs =>
              cases h1
              exact pushes_push _ _ (hid name T hn ht hs)
            · cases h1
              exact pushes_refl P _
          | undefined => rw [ht] at h1; cases h1
          | null => rw [ht] at h1; cases h1
          | str _ => rw [ht] at h1; cases h1
          | bool _ => rw [ht] at h1; cases h1
          | arr _ => rw [ht] at h1; cases h1
      have p2 : Pushes P s1 s2 := by
        cases hv : (node.get "visibility").text? with
        | none =>
          rw [hv] at h3
          cases h3
          exact pushes_refl P _
        | some w =>
          rw [hv] at h3
          cases ht : node.get "typeName" with
          | node T =>
            rw [ht] at h3
            cases h3
            exact pushes_pushFound _ code _ w _ (hvis w)
          | undefined => rw [ht] at h3; cases h3
          | null => rw [ht] at h3; cases h3
          | str _ => rw [ht] at h3; cases h3
          | bool _ => rw [ht] at h3; cases h3
          | arr _ => rw [ht] at h3; cases h3
      have p3 : Pushes P s2 st' := by
        rw [← h4]
        cases (node.get "storageLocation").text? with
        | none => exact pushes_refl P _
        | some w => exact pushes_pushFound _ code _ w _ (hloc w)
      exact pushes_trans (pushes_mark P st _ _) (pushes_trans p1 (pushes_trans p2 p3))

theorem variableDeclaration_isSome (code : Str) (cr : List (Nat × Nat)) (node : Node) (st : St)
    (T : Node) (ht : node.get "typeName" = .node T) :
    (Visitor.VariableDeclaration code cr node st).isSome = true := by
  unfold Visitor.VariableDeclaration
  rw [ht]
  split
  · rfl
  · split
    · rfl
    · simp only []
      cases (node.get "name").text? with
      | none =>
        cases (node.get "visibility").text? <;> rfl
      | some name =>
        simp only []
        split <;> cases (node.get "visibility").text? <;> rfl

theorem binaryOperation_pushes {P : Token → Prop} (code : Str) (cr : List (Nat × Nat))
    (node : Node) (st st' : St)
    (hop : ∀ op L, node.get "operator" = .str op → node.get "left" = .node L →
      slice code L.range.2 (L.range.2 + op.length) = op →
      P ⟨"operator", some op, (L.range.2, L.range.2 + op.length)⟩)
    (h : Visitor.BinaryOperation code cr node st = some st') : Pushes P st st' := by
  unfold Visitor.BinaryOperation at h
  by_cases hc : isRangeInComments (some node.range) (some cr) = true
  · rw [if_pos hc] at h
    cases h
    exact pushes_refl P st
  · rw [if_neg hc] at h
    by_cases hseen : st.isSeen (rangeKey node.range) = true
    · rw [if_pos hseen] at h
      cases h
      exact pushes_refl P st
    · rw [if_neg hseen] at h
      simp only [] at h
      split at h
      · next op L ho hl =>
        split at h
        · next hs =>
          cases h
          exact pushes_trans (pushes_mark P st _ _) (pushes_push _ _ (hop op L ho hl hs))
        · cases h
          exact pushes_mark P st _ _
      · cases h

theorem binaryOperation_isSome (code : Str) (cr : List (Nat × Nat)) (node : Node) (st : St)
    (op : Str) (L : Node) (ho : node.get "operator" = .str op)
    (hl : node.get "left" = .node L) :
    (Visitor.BinaryOperation code cr node st).isSome = true := by
  unfold Visitor.BinaryOperation
  rw [ho, hl]
  split
  · rfl
  · split
    · rfl
    · simp only []
      split <;> rfl

/-- C26. Every token a verify-or-search rule pushes is valued with the text at its span,
`code.slice(range[0], range[1]) === value`: the names pushed by `safeFindNameAndPush` and the
forward searches for a modifier or `returns`, and so every token other than the fixed-text
`keyword` token of the contract, event, struct and function rules, and every token of the
variable and binary-operation rules. When the text is not found nothing is pushed: a name that
is neither at its offset nor further on leaves the state unchanged, a variable name that is not
at its offset gives no `identifier` token, an operator that is not at its offset gives no token.
The variable rule returns whenever `typeName` is a node, the binary-operation rule whenever
`operator` is a string and `left` a node; the other rules always return. -/
theorem search_tokens_faithful (code : Str) (cr : List (Nat × Nat)) (node : Node) (st : St) :
    (∀ kw ty, Pushes (fun t => t.faithful code) st (safeFindNameAndPush node st code kw ty)) ∧
      (∀ ty w k, Pushes (fun t => t.faithful code) st (pushFound st code ty w k)) ∧
      Pushes (fun t => t.type ≠ "keyword" → t.faithful code) st
        (Visitor.ContractDefinition code node st) ∧
      Pushes (fun t => t.type ≠ "keyword" → t.faithful code) st
        (Visitor.EventDefinition code node st) ∧
      Pushes (fun t => t.type ≠ "keyword" → t.faithful code) st
        (Visitor.StructDefinition code cr node st) ∧
      Pushes (fun t => t.type ≠ "keyword" → t.faithful code) st
        (Visitor.FunctionDefinition code cr node st) ∧
      (∀ st', Visitor.VariableDeclaration code cr node st = some st' →
        Pushes (fun t => t.faithful code) st st') ∧
      (∀ st', Visitor.BinaryOperation code cr node st = some st' →
        Pushes (fun t => t.faithful code) st st') ∧
      (∀ kw ty name, (node.get "name").text? = some name →
        slice code (node.range.1 + kw.length + 1) (node.range.1 + kw.length + 1 + name.length) ≠
          name →
        indexOf code name (node.range.1 + kw.length) = none →
        safeFindNameAndPush node st code kw ty = st) ∧
      (∀ ty w k, indexOf code w k = none → pushFound st code ty w k = st) ∧
      (∀ T, node.get "typeName" = .node T →
        (Visitor.VariableDeclaration code cr node st).isSome = true ∧
          ((∀ name, (node.get "name").text? = some name →
              slice code
                  (T.range.2 +
                    ((code.drop T.range.2).takeWhile fun c => c = ' ' || c = '\t').length)
                  (T.range.2 +
                    ((code.drop T.range.2).takeWhile fun c => c = ' ' || c = '\t').length +
                    name.length) ≠ name) →
            ∀ st', Visitor.VariableDeclaration code cr node st = some st' →
              Pushes (fun t => t.type ≠ "identifier") st st')) ∧
      (∀ op L, node.get "operator" = .str op → node.get "left" = .node L →
        (Visitor.BinaryOperation code cr node st).isSome = true ∧
          (slice code L.range.2 (L.range.2 + op.length) ≠ op →
            ∀ st', Visitor.BinaryOperation code cr node st = some st' →
              st'.tokens = st.tokens)) := by
  have hsound : ∀ t, Token.sound code t → t.type ≠ "keyword" → t.faithful code :=
    fun t h => h.2
  have hfound : ∀ (ty : String) (w : Str) (a : Nat), slice code a (a + w.length) = w →
      Token.faithful code ⟨ty, some w, (a, a + w.length)⟩ := by
    intro ty w a hs
    show some w = some (slice code a (a + w.length))
    rw [hs]
  refine ⟨?_, ?_, pushes_mono hsound (contractDefinition_sound code node st),
    pushes_mono hsound (eventDefinition_sound code node st),
    pushes_mono hsound (structDefinition_sound code cr node st),
    pushes_mono hsound (functionDefinition_sound code cr node st), ?_, ?_, ?_, ?_, ?_, ?_⟩
  · intro kw ty
    exact pushes_safeFind node st code kw ty fun name a _ hs => hfound ty name a hs
  · intro ty w k
    exact pushes_pushFound st code ty w k fun a hs => hfound ty w a hs
  · intro st' h
    exact variableDeclaration_pushes code cr node st st'
      (fun name T _ _ hs => hfound _ name _ hs) (fun w a hs => hfound _ w a hs)
      (fun w a hs => hfound _ w a hs) h
  · intro st' h
    exact binaryOperation_pushes code cr node st st' (fun op L _ _ hs => hfound _ op _ hs) h
  · intro kw ty name hn hs hf
    unfold safeFindNameAndPush
    rw [hn]
    simp only []
    rw [if_neg hs, hf]
  · intro ty w k hf
    unfold pushFound
    rw [hf]
  · intro T ht
    refine ⟨variableDeclaration_isSome code cr node st T ht, ?_⟩
    intro hmiss st' h
    refine variableDeclaration_pushes code cr node st st' ?_
      (fun w a _ => (by decide : "visibility" ≠ "identifier"))
      (fun w a _ => (by decide : "storageLocation" ≠ "identifier")) h
    intro name T' hn ht' hs
    rw [ht] at ht'
    cases ht'
    exact absurd hs (hmiss name hn)
  · intro op L ho hl
    refine ⟨binaryOperation_isSome code cr node st op L ho hl, ?_⟩
    intro hmiss st' h
    have hp : Pushes (fun _ => False) st st' := by
      refine binaryOperation_pushes code cr node st st' ?_ h
      intro op' L' ho' hl' hs
      rw [ho] at ho'
      rw [hl] at hl'
      cases ho'
      cases hl'
      exact hmiss hs
    obtain ⟨l, e, f⟩ := hp
    cases l with
    | nil => simpa using e
    | cons t _ => exact absurd (f t (List.Mem.head _)) id

/-! ## Every pushed token has a type of the color table -/

theorem emitted_mk (ty : String) (v : Option Str) (r : Nat × Nat) (h : ty ∈ emittedTypes) :
    (⟨ty, v, r⟩ : Token).type ∈ emittedTypes := h

theorem pushTypeOf_pushes (st st' : St) (t : PVal) (h : Visitor.pushTypeOf st t = some st') :
    Pushes (fun t => t.type ∈ emittedTypes) st st' := by
  unfold Visitor.pushTypeOf at h
  split at h
  · cases h
    exact pushes_push _ _ (emitted_mk _ _ _ (by decide))
  · cases h

theorem typeConversion_pushes (cr : List (Nat × Nat)) (node : Node) (st st' : St)
    (h : Visitor.TypeConversion cr node st = some st') :
    Pushes (fun t => t.type ∈ emittedTypes) st st' := by
  unfold Visitor.TypeConversion at h
  split at h
  · cases h; exact pushes_refl _ _
  · split at h
    · cases h; exact pushes_refl _ _
    · simp only [] at h
      split at h
      · exact pushes_trans (pushes_mark _ st _ _) (pushTypeOf_pushes _ _ _ h)
      · cases h; exact pushes_mark _ _ _ _

theorem memberAccess_pushes (cr : List (Nat × Nat)) (node : Node) (st st' : St)
    (h : Visitor.MemberAccess cr node st = some st') :
    Pushes (fun t => t.type ∈ emittedTypes) st st' := by
  unfold Visitor.MemberAccess at h
  split at h
  · cases h; exact pushes_refl _ _
  · simp only [] at h
    split at h
    · cases h; exact pushes_refl _ _
    · split at h
      · cases h
      · split at h
        · cases h
          exact pushes_push _ _ (emitted_mk _ _ _ (by decide))
        · split at h
          · cases h
            exact pushes_trans (pushes_push _ _ (emitted_mk _ _ _ (by decide)))
              (pushes_mark _ _ _ _)
          · cases h

theorem hexNumber_pushes (cr : List (Nat × Nat)) (node : Node) (st : St) :
    Pushes (fun t => t.type ∈ emittedTypes) st (Visitor.HexNumber cr node st) := by
  unfold Visitor.HexNumber
  split
  · exact pushes_refl _ _
  · simp only []
    split
    · exact pushes_refl _ _
    · exact pushes_trans (pushes_push _ _ (emitted_mk _ _ _ (by decide)))
        (pushes_mark _ _ _ _)

theorem mapping_pushes (cr : List (Nat × Nat)) (node : Node) (st st' : St)
    (h : Visitor.Mapping cr node st = some st') :
    Pushes (fun t => t.type ∈ emittedTypes) st st' := by
  unfold Visitor.Mapping at h
  split at h
  · cases h; exact pushes_refl _ _
  · split at h
    · cases h; exact pushes_refl _ _
    · simp only [] at h
      obtain ⟨s1, h1, h2⟩ := Option.bind_eq_some.mp h
      have p0 : Pushes (fun t => t.type ∈ emittedTypes) st
          ((st.mark (rangeKey node.range) .yes).push
            ⟨"keyword", some "mapping".toList, (node.range.1, node.range.1 + 7)⟩) :=
        pushes_trans (pushes_mark _ _ _ _) (pushes_push _ _ (emitted_mk _ _ _ (by decide)))
      have p1 : Pushes (fun t => t.type ∈ emittedTypes)
          ((st.mark (rangeKey node.range) .yes).push
            ⟨"keyword", some "mapping".toList, (node.range.1, node.range.1 + 7)⟩) s1 := by
        split at h1
        · exact pushTypeOf_pushes _ _ _ h1
        · cases h1; exact pushes_refl _ _
      have p2 : Pushes (fun t => t.type ∈ emittedTypes) s1 st' := by
        split at h2
        · split at h2
          · split at h2
            · cases h2; exact pushes_refl _ _
            · exact pushTypeOf_pushes _ _ _ h2
          · exact pushTypeOf_pushes _ _ _ h2
        · cases h2; exact pushes_refl _ _
      exact pushes_trans p0 (pushes_trans p1 p2)

theorem typeNameExpression_pushes (cr : List (Nat × Nat)) (node : Node) (st : St) :
    Pushes (fun t => t.type ∈ emittedTypes) st (Visitor.TypeNameExpression cr node st) := by
  unfold Visitor.TypeNameExpression
  split
  · exact pushes_refl _ _
  · split
    · exact pushes_refl _ _
    · simp only []
      split
      · exact pushes_trans (pushes_mark _ _ _ _)
          (pushes_push _ _ (emitted_mk _ _ _ (by decide)))
      · exact pushes_mark _ _ _ _

theorem elementaryTypeName_pushes (cr : List (Nat × Nat)) (node : Node) (st : St) :
    Pushes (fun t => t.type ∈ emittedTypes) st (Visitor.ElementaryTypeName cr node st) := by
  unfold Visitor.ElementaryTypeName
  split
  · exact pushes_refl _ _
  · split
    · exact pushes_refl _ _
    · exact pushes_trans (pushes_push _ _ (emitted_mk _ _ _ (by decide)))
        (pushes_mark _ _ _ _)

theorem stringLiteral_pushes (cr : List (Nat × Nat)) (node : Node) (st : St) :
    Pushes (fun t => t.type ∈ emittedTypes) st (Visitor.StringLiteral cr node st) := by
  unfold Visitor.StringLiteral
  split
  · exact pushes_refl _ _
  · split
    · split
      · exact pushes_refl _ _
      · simp only []
        exact pushes_trans (pushes_trans (pushes_mark _ _ _ _) (pushes_mark _ _ _ _))
          (pushes_push _ _ (emitted_mk _ _ _ (by decide)))
    · exact pushes_refl _ _

theorem numberLiteral_pushes (cr : List (Nat × Nat)) (node : Node) (st st' : St)
    (h : Visitor.NumberLiteral cr node st = some st') :
    Pushes (fun t => t.type ∈ emittedTypes) st st' := by
  unfold Visitor.NumberLiteral at h
  split at h
  · cases h; exact pushes_refl _ _
  · simp only [] at h
    split at h
    · cases h; exact pushes_refl _ _
    · split at h
      · cases h
      · cases h
      · cases h
        exact pushes_trans (pushes_push _ _ (emitted_mk _ _ _ (by decide)))
          (pushes_mark _ _ _ _)

theorem functionCall_pushes (cr : List (Nat × Nat)) (node : Node) (st st' : St)
    (h : Visitor.FunctionCall cr node st = some st') :
    Pushes (fun t => t.type ∈ emittedTypes) st st' := by
  unfold Visitor.FunctionCall at h
  split at h
  · cases h; exact pushes_refl _ _
  · split at h
    · cases h
    · cases h
    · simp only [] at h
      split at h
      · cases h; exact pushes_refl _ _
      · cases h
        refine pushes_trans ?_ (pushes_mark _ _ _ _)
        split
        · refine pushes_push _ _ (emitted_mk _ _ _ ?_)
          split_ifs <;> decide
        · exact pushes_refl _ _
    · simp only [] at h
      split at h
      · cases h; exact pushes_refl _ _
      · cases h; exact pushes_mark _ _ _ _

theorem expressionStatement_pushes (cr : List (Nat × Nat)) (node : Node) (st st' : St)
    (h : Visitor.ExpressionStatement cr node st = some st') :
    Pushes (fun t => t.type ∈ emittedTypes) st st' := by
  unfold Visitor.ExpressionStatement at h
  split at h
  · cases h; exact pushes_refl _ _
  · split at h
    · cases h; exact pushes_refl _ _
    · simp only [] at h
      split at h
      · split at h
        · split at h
          · cases h
          · cases h
          · cases h; exact pushes_mark _ _ _ _
        · cases h; exact pushes_mark _ _ _ _
      · cases h; exact pushes_mark _ _ _ _

theorem visitor_pushes (code : Str) (cr : List (Nat × Nat)) (node : Node) (st st' : St)
    (h : visitor code cr node st = some st') :
    Pushes (fun t => t.type ∈ emittedTypes) st st' := by
  unfold visitor at h
  split at h
  · cases h
    exact pushes_mono (fun _ ht => ht.1) (contractDefinition_sound code node st)
  · exact typeConversion_pushes cr node st st' h
  · exact memberAccess_pushes cr node st st' h
  · cases h
    exact pushes_mono (fun _ ht => ht.1) (eventDefinition_sound code node st)
  · cases h
    exact pushes_push _ _ (emitted_mk _ _ _ (by decide))
  · cases h
    exact hexNumber_pushes cr node st
  · cases h
    exact pushes_mono (fun _ ht => ht.1) (structDefinition_sound code cr node st)
  · exact mapping_pushes cr node st st' h
  · cases h
    exact pushes_mono (fun _ ht => ht.1) (functionDefinition_sound code cr node st)
  · cases h
    exact typeNameExpression_pushes cr node st
  · cases h
    exact elementaryTypeName_pushes cr node st
  · exact variableDeclaration_pushes code cr node st st'
      (fun _ _ _ _ _ => emitted_mk _ _ _ (by decide))
      (fun _ _ _ => emitted_mk _ _ _ (by decide))
      (fun _ _ _ => emitted_mk _ _ _ (by decide)) h
  · cases h
    exact stringLiteral_pushes cr node st
  · exact numberLiteral_pushes cr node st st' h
  · exact binaryOperation_pushes code cr node st st'
      (fun _ _ _ _ _ => emitted_mk _ _ _ (by decide)) h
  · exact functionCall_pushes cr node st st' h
  · exact expressionStatement_pushes cr node st st' h
  · cases h
    exact pushes_refl _ _

mutual
theorem visitNode_pushes {P : Token → Prop} (rule : Node → St → Option St)
    (hr : ∀ n st st', rule n st = some st' → Pushes P st st') :
    ∀ (n : Node) (st st' : St), visitNode rule n st = some st' → Pushes P st st'
  | .mk ty r ps, st, st', h => by
    rw [visitNode] at h
    obtain ⟨s1, h1, h2⟩ := Option.bind_eq_some.mp h
    exact pushes_trans (hr _ _ _ h1) (visitProps_pushes rule hr ps s1 st' h2)
theorem visitProps_pushes {P : Token → Prop} (rule : Node → St → Option St)
    (hr : ∀ n st st', rule n st = some st' → Pushes P st st') :
    ∀ (ps : List (String × PVal)) (st st' : St),
      visitProps rule ps st = some st' → Pushes P st st'
  | [], st, st', h => by
    rw [visitProps] at h
    cases h
    exact pushes_refl P st
  | (_, v) :: rest, st, st', h => by
    rw [visitProps] at h
    obtain ⟨s1, h1, h2⟩ := Option.bind_eq_some.mp h
    exact pushes_trans (visitVal_pushes rule hr v st s1 h1)
      (visitProps_pushes rule hr rest s1 st' h2)
theorem visitVal_pushes {P : Token → Prop} (rule : Node → St → Option St)
    (hr : ∀ n st st', rule n st = some st' → Pushes P st st') :
    ∀ (v : PVal) (st st' : St), visitVal rule v st = some st' → Pushes P st st'
  | .node n, st, st', h => by
    rw [visitVal] at h
    exact visitNode_pushes rule hr n st st' h
  | .arr xs, st, st', h => by
    rw [visitVal] at h
    exact visitVals_pushes rule hr xs st st' h
  | .undefined, st, st', h => by
    simp only [visitVal, Option.some.injEq] at h
    subst h
    exact pushes_refl P st
  | .null, st, st', h => by
    simp only [visitVal, Option.some.injEq] at h
    subst h
    exact pushes_refl P st
  | .str _, st, st', h => by
    simp only [visitVal, Option.some.injEq] at h
    subst h
    exact pushes_refl P st
  | .bool _, st, st', h => by
    simp only [visitVal, Option.some.injEq] at h
    subst h
    exact pushes_refl P st
theorem visitVals_pushes {P : Token → Prop} (rule : Node → St → Option St)
    (hr : ∀ n st st', rule n st = some st' → Pushes P st st') :
    ∀ (xs : List PVal) (st st' : St), visitVals rule xs st = some st' → Pushes P st st'
  | [], st, st', h => by
    rw [visitVals] at h
    cases h
    exact pushes_refl P st
  | v :: rest, st, st', h => by
    rw [visitVals] at h
    obtain ⟨s1, h1, h2⟩ := Option.bind_eq_some.mp h
    exact pushes_trans (visitVal_pushes rule hr v st s1 h1)
      (visitVals_pushes rule hr rest s1 st' h2)
end

theorem punctuationToken_type (cr : List (Nat × Nat)) (i : Nat) (c : Char) (t : Token)
    (h : punctuationToken cr i c = some t) : t.type ∈ emittedTypes := by
  unfold punctuationToken at h
  split at h
  · cases h
  · split at h
    · cases h
      exact emitted_mk _ _ _ (by decide)
    · split at h
      · cases h
        exact emitted_mk _ _ _ (by decide)
      · cases h

theorem sweep_types (cr : List (Nat × Nat)) (seen : List (Str × SeenVal)) (text : Str)
    (i skip : Nat) (toks : List Token) (h : ∀ t ∈ toks, t.type ∈ emittedTypes) :
    ∀ t ∈ sweep cr seen text i skip toks, t.type ∈ emittedTypes := by
  rw [sweep_eq_sweptOffsets]
  intro t ht
  rcases List.mem_append.mp ht with h1 | h1
  · exact h t h1
  · obtain ⟨p, _, hp⟩ := List.mem_filterMap.mp h1
    exact punctuationToken_type cr p.1 p.2 t hp

theorem scanExtra_types (cr : List (Nat × Nat)) : ∀ (text : Str) (pos skip : Nat)
    (toks : List Token), (∀ t ∈ toks, t.type ∈ emittedTypes) →
    ∀ t ∈ scanExtra cr text pos skip toks, t.type ∈ emittedTypes := by
  intro text
  induction text with
  | nil =>
    intro pos skip toks h
    simpa [scanExtra] using h
  | cons c cs ih =>
    intro pos skip toks h
    cases skip with
    | succ k =>
      rw [scanExtra]
      exact ih _ _ _ h
    | zero =>
      rw [scanExtra]
      split
      · apply ih
        split
        · exact h
        · intro t ht
          rcases List.mem_append.mp ht with h1 | h1
          · exact h t h1
          · rw [List.mem_singleton.mp h1]
            exact emitted_mk _ _ _ (by decide)
      · exact ih _ _ _ h

theorem extractComments_types (code : Str) : ∀ t ∈ extractComments code, t.type = "comment" :=
  fun t ht => ((extractCommentsFrom_spec code [] 0).1 t ht).2.2.2.1

theorem collectTokens_types (ast : PVal) (code : Str) (cr : List (Nat × Nat))
    (toks : List Token) (h : collectTokens ast code cr = some toks) :
    ∀ t ∈ toks, t.type ∈ emittedTypes := by
  unfold collectTokens at h
  obtain ⟨st, h1, h2⟩ := Option.map_eq_some'.mp h
  rw [← h2]
  apply scanExtra_types
  apply sweep_types
  exact pushes_all (visitVal_pushes _ (visitor_pushes code cr) ast _ st h1) (by simp)

theorem emittedTypes_table :
    ∀ ty ∈ emittedTypes,
      (colorsMap.filter fun e => decide (e.1 = ty)).length = 1 ∧
        colorsMap.lookup ty = some (colorFor ty) ∧ colorFor ty ≠ colorsReset := by
  decide

/-- C24. Every token of `extractComments` and of `collectTokens`, and so every token of the
merged list, has one of the eighteen types keyword, type, string, identifier, number,
hexNumber, operator, comment, visibility, contractName, eventName, funcName, structName,
memberAccess, returnsKeyword, parenthesis, brackets, storageLocation. Each of these types has
exactly one entry in `colorsMap`, the color `applyColors` prints for it is that entry, and the
entry is not the reset code: no emitted token is rendered with the reset fallback. -/
theorem emitted_types_colored (ast : PVal) (code : Str) (toks : List Token)
    (h : collectAllTokens ast code = some toks) :
    (∀ t ∈ extractComments code, t.type ∈ emittedTypes) ∧
      (∀ cr astTokens, collectTokens ast code cr = some astTokens →
        ∀ t ∈ astTokens, t.type ∈ emittedTypes) ∧
      (∀ t ∈ toks, t.type ∈ emittedTypes ∧ colorsMap.lookup t.type = some (colorFor t.type) ∧
        colorFor t.type ≠ colorsReset) ∧
      (∀ ty ∈ emittedTypes,
        (colorsMap.filter fun e => decide (e.1 = ty)).length = 1 ∧
          colorsMap.lookup ty = some (colorFor ty) ∧ colorFor ty ≠ colorsReset) ∧
      emittedTypes.length = 18 ∧ colorsMap.length = 18 := by
  have hc : ∀ t ∈ extractComments code, t.type ∈ emittedTypes := by
    intro t ht
    rw [extractComments_types code t ht]
    decide
  refine ⟨hc, fun cr astTokens ha => collectTokens_types ast code cr astTokens ha, ?_,
    emittedTypes_table, rfl, rfl⟩
  unfold collectAllTokens at h
  obtain ⟨astTokens, h1, h2⟩ := Option.map_eq_some'.mp h
  intro t ht
  rw [← h2] at ht
  have hm : t ∈ extractComments code ++ astTokens := (sortTokens_perm _).mem_iff.mp ht
  have hty : t.type ∈ emittedTypes := by
    rcases List.mem_append.mp hm with h3 | h3
    · exact hc t h3
    · exact collectTokens_types ast code _ astTokens h1 t h3
  exact ⟨hty, (emittedTypes_table t.type hty).2⟩

theorem emitted_types_colored_witness :
    collectAllTokens commentedAst commentedCode = some commentedTokens ∧
      ∀ t ∈ commentedTokens, t.type ∈ emittedTypes ∧
        colorsMap.lookup t.type = some (colorFor t.type) ∧ colorFor t.type ≠ colorsReset :=
  ⟨by decide, (emitted_types_colored commentedAst commentedCode commentedTokens
    (by decide)).2.2.1⟩

end SolidityAnsi
